import Mathlib

/-!
Verification development for the cmos knowledge indexing and retrieval
engine (`cmosctl/_knowledge.py`, `cmosctl/kb.py`, `cmosctl/recall.py`,
`cmosctl/db.py`).  Python string operations are embedded over `List Char`
(ASCII-faithful), floating point scores over `ℚ`, and the SQLite layer as
explicit state passing over a record of table contents.
-/

set_option maxRecDepth 20000

namespace Cmos

/-! ## Python string primitives -/

/-- Python `str.isspace` for the characters relevant to `str.split()` and
`str.strip()` (ASCII range). -/
def pyIsSpace (c : Char) : Bool :=
  c.isWhitespace || c = '\x0b' || c = '\x0c'

/-- Python `str.strip()` on a character list. -/
def stripChars (l : List Char) : List Char :=
  ((l.dropWhile pyIsSpace).reverse.dropWhile pyIsSpace).reverse

/-- Python `str.strip()`. -/
def pyStrip (s : String) : String := ⟨stripChars s.data⟩

/-- Helper for Python `str.split()` with no arguments: accumulate maximal
runs of non-whitespace characters. -/
def splitWsAux : List Char → List Char → List (List Char)
  | [], acc => if acc.isEmpty then [] else [acc.reverse]
  | c :: rest, acc =>
    if pyIsSpace c then
      if acc.isEmpty then splitWsAux rest [] else acc.reverse :: splitWsAux rest []
    else splitWsAux rest (c :: acc)

/-- Python `str.split()` with no arguments. -/
def pySplitWs (s : String) : List String :=
  (splitWsAux s.data []).map (fun l => (⟨l⟩ : String))

/-- Python `" ".join(blocks)` on character lists. -/
def joinSpace : List (List Char) → List Char
  | [] => []
  | [t] => t
  | t :: rest => t ++ ' ' :: joinSpace rest

/-- `normalized_query = " ".join(query.split()).strip()` as used by
`search_knowledge` and `recall_knowledge`. -/
def normalizeQuery (q : String) : String :=
  pyStrip ⟨joinSpace (splitWsAux q.data [])⟩

/-- `collapse_spaces` from `_knowledge.py`: `" ".join(text.split())`. -/
def collapse_spaces (text : String) : String :=
  " ".intercalate (pySplitWs text)

/-- Helper for Python `str.splitlines()`: split on `\n`, `\r\n` and `\r`,
with no trailing empty line for a trailing terminator. -/
def splitlinesAux : List Char → List Char → List (List Char)
  | [], acc => if acc.isEmpty then [] else [acc.reverse]
  | '\r' :: '\n' :: rest, acc => acc.reverse :: splitlinesAux rest []
  | '\r' :: rest, acc => acc.reverse :: splitlinesAux rest []
  | '\n' :: rest, acc => acc.reverse :: splitlinesAux rest []
  | c :: rest, acc => splitlinesAux rest (c :: acc)

/-- Python `str.splitlines()`. -/
def pySplitlines (s : String) : List String :=
  (splitlinesAux s.data []).map (fun l => (⟨l⟩ : String))

/-- Python `str.lower()` (ASCII range). -/
def pyLower (s : String) : String := ⟨s.data.map Char.toLower⟩

/-- Decide whether the first list is a prefix of the second. -/
def isPrefixList : List Char → List Char → Bool
  | [], _ => true
  | _ :: _, [] => false
  | a :: ps, b :: cs => a = b && isPrefixList ps cs

/-- Python `s.startswith(pre)`. -/
def pyStartswith (s pre : String) : Bool := isPrefixList pre.data s.data

/-- Python `needle in hay` membership test (contiguous substring). -/
def hasSubChars : List Char → List Char → Bool
  | _, [] => true
  | [], _ :: _ => false
  | h :: t, n :: ns =>
    isPrefixList (n :: ns) (h :: t) || hasSubChars t (n :: ns)

/-- Python `needle in hay` on strings. -/
def hasSub (hay needle : String) : Bool := hasSubChars hay.data needle.data

/-! ## Segmenter (`extract_paragraphs` from `_knowledge.py`; the private
copy `_extract_paragraphs` in `recall.py` is character-for-character the
same algorithm, so one embedding covers both). -/

/-- `Paragraph` dataclass.  Field `sec` renders the Python `section`
attribute (`section` is a Lean keyword). -/
structure Paragraph where
  text : String
  line : Nat
  sec : Option String
  deriving DecidableEq, Repr

/-- Mutable locals of `extract_paragraphs` between loop iterations. -/
structure SegState where
  title : Option String
  sec : Option String
  in_code_block : Bool
  buffer : List String
  start_line : Nat
  blocks : List Paragraph
  deriving DecidableEq, Repr

/-- The nested `flush()` closure of `extract_paragraphs`. -/
def flushSeg (s : SegState) : SegState :=
  if s.buffer.isEmpty then s
  else
    let joined := " ".intercalate ((s.buffer.filter (fun l => pyStrip l != "")).map pyStrip)
    let para := collapse_spaces joined
    if para = "" then { s with buffer := [] }
    else { s with buffer := [],
                  blocks := s.blocks ++ [⟨para, s.start_line, s.sec⟩] }

/-- One iteration of the `for index, raw_line in enumerate(lines, start=1)`
loop of `extract_paragraphs`. -/
def segStep (s : SegState) (idx : Nat) (raw : String) : SegState :=
  let stripped := pyStrip raw
  if pyStartswith stripped "```" then
    let s1 := flushSeg s
    { s1 with in_code_block := !s1.in_code_block }
  else if s.in_code_block then s
  else if pyStartswith stripped "#" then
    let s1 := flushSeg s
    let heading := pyStrip ⟨stripped.data.dropWhile (fun c => c = '#')⟩
    let title1 :=
      if s1.title = none ∧ pyStartswith stripped "# " then
        (if heading = "" then none else some heading)
      else s1.title
    let sec1 := if heading = "" then s1.sec else some heading
    { s1 with title := title1, sec := sec1 }
  else if stripped = "" then flushSeg s
  else if s.buffer.isEmpty then
    { s with buffer := s.buffer ++ [stripped], start_line := idx }
  else
    { s with buffer := s.buffer ++ [stripped] }

/-- The line loop of `extract_paragraphs`, threading the 1-based index. -/
def segLoop : SegState → Nat → List String → SegState
  | s, _, [] => s
  | s, i, l :: rest => segLoop (segStep s i l) (i + 1) rest

/-- Initial state of `extract_paragraphs`. -/
def segInit : SegState := ⟨none, none, false, [], 1, []⟩

/-- `extract_paragraphs(text)` from `_knowledge.py`. -/
def extract_paragraphs (text : String) : String × List Paragraph :=
  let s := flushSeg (segLoop segInit 1 (pySplitlines text))
  (s.title.getD "", s.blocks)

/-! ## Recall tokenization and scoring (`recall.py`) -/

/-- Python `hay.count(needle)`: non-overlapping occurrences, scanning left to
right (`"aa".count("") = 3`). -/
def pyCountChars : List Char → List Char → Nat
  | s, [] => s.length + 1
  | [], _ :: _ => 0
  | c :: t, n :: ns =>
    if isPrefixList (n :: ns) (c :: t) then
      1 + pyCountChars (List.drop ns.length t) (n :: ns)
    else pyCountChars t (n :: ns)
  termination_by s _ => s.length
  decreasing_by
  · simp [List.length_drop]; omega
  · simp

/-- Python `hay.count(needle)` on strings. -/
def pyCount (hay needle : String) : Nat := pyCountChars hay.data needle.data

/-- Character loop of `_tokenize`, carrying the pending `word` reversed. -/
def tokenizeAux : List Char → List Char → List String
  | [], word => if word.length > 1 then [⟨word.reverse⟩] else []
  | c :: rest, word =>
    if c.isAlphanum then tokenizeAux rest (c :: word)
    else if word.length > 1 then ⟨word.reverse⟩ :: tokenizeAux rest []
    else tokenizeAux rest []

/-- `_tokenize(text)` from `recall.py`: lower-case, take maximal alphanumeric
runs, keep only tokens of length above one. -/
def tokenize (text : String) : List String := tokenizeAux (pyLower text).data []

/-- Python `dict` update `m[k] = v` on an insertion-ordered association
list: replace in place if the key exists, else append. -/
def dictUpd {β : Type} : List (String × β) → String → β → List (String × β)
  | [], k, v => [(k, v)]
  | (k', v') :: rest, k, v =>
    if k' = k then (k, v) :: rest else (k', v') :: dictUpd rest k v

/-- `difflib.SequenceMatcher(None, a, b).quick_ratio()`: twice the multiset
character intersection over the total length (1 for two empty strings),
embedded over `ℚ`. -/
def quickRatio (a b : String) : ℚ :=
  let la := a.data
  let lb := b.data
  let common := (la.dedup.map (fun c => min (la.count c) (lb.count c))).sum
  if la.length + lb.length = 0 then 1
  else (2 * common : ℚ) / ((la.length : ℚ) + (lb.length : ℚ))

/-- `_score_snippet(snippet, tokens, query_lower)` from `recall.py`, scoring
a snippet's text (floats embedded as `ℚ`). -/
def score_snippet (text : String) (tokens : List String) (query_lower : String) : ℚ :=
  let text_lower := pyLower text
  let vals := tokens.foldl (fun m t => dictUpd m t (pyCount text_lower t)) []
  let direct_hits := (vals.map Prod.snd).sum
  if direct_hits = 0 ∧ hasSub text_lower query_lower = false then
    let ratio := quickRatio query_lower text_lower
    if ratio > 3 / 5 then ratio else 0
  else
    let base := if hasSub text_lower query_lower then (direct_hits : ℚ) + 1 else (direct_hits : ℚ)
    let unique_hits := (tokens.dedup.filter (fun t => hasSub text_lower t)).length
    base + (1 / 4) * unique_hits

/-- C5's description of the score, written from the claim: the fallback
branch is guarded by "no query token occurs in the text" (instead of the
code's `direct_hits == 0`), and the direct-hit total is the sum of the
per-distinct-token occurrence counts. -/
def claimRecallScore (text_lower : String) (tokens : List String) (query_lower : String) : ℚ :=
  if (∀ t ∈ tokens, hasSub text_lower t = false) ∧ hasSub text_lower query_lower = false then
    (if quickRatio query_lower text_lower > 3 / 5 then quickRatio query_lower text_lower else 0)
  else
    (tokens.dedup.map (fun t => (pyCount text_lower t : ℚ))).sum
      + (if hasSub text_lower query_lower then 1 else 0)
      + (1 / 4) * (tokens.dedup.filter (fun t => hasSub text_lower t)).length

/-! ## Errors raised by the query helpers -/

/-- Errors surfaced by `search_knowledge` / `recall_knowledge`:
`ValueError("Query must include at least one term.")`,
`ValueError("Query must include at least one alphanumeric term.")` and
`sqlite3` persistence failures. -/
inductive KbError where
  | invalidQuery
  | noAlnumToken
  | storage
  deriving DecidableEq, Repr

/-! ## Ranked query engine (`search_knowledge` from `kb.py`) -/

/-- One row of the FTS join in `search_knowledge`, as returned by the
external SQLite engine (modelled as a function parameter): `rank` is the
raw `bm25(kb_chunks_fts)` value, `none` when the engine reports NULL. -/
structure FtsQueryRow where
  path : String
  title : String
  sec : Option String
  line : Option Nat
  text : String
  rank : Option ℚ
  deriving DecidableEq, Repr

/-- `SearchHit` dataclass from `kb.py`. -/
structure SearchHit where
  path : String
  title : String
  sec : Option String
  line : Option Nat
  snippet : String
  score : ℚ
  deriving DecidableEq, Repr

/-- Python `str.rstrip()`. -/
def pyRStrip (s : String) : String := ⟨(s.data.reverse.dropWhile pyIsSpace).reverse⟩

/-- `shorten(text, limit)` from `_knowledge.py` (`_shorten` in `recall.py`
is identical): keep short text, else truncate to `limit - 3`, right-strip
and append the ellipsis marker. -/
def shorten (text : String) (limit : Nat) : String :=
  if text.data.length ≤ limit then text
  else (pyRStrip ⟨text.data.take (limit - 3)⟩) ++ "..."

/-- The per-row result shaping of `search_knowledge`: missing rank counts
as 0, the raw rank is clamped to be non-negative, and the normalized score
is `1 / (1 + r)`. -/
def searchHitOfRow (row : FtsQueryRow) : SearchHit :=
  let score_raw := row.rank.getD 0
  { path := row.path
    title := if row.title = "" then row.path else row.title
    sec := row.sec
    line := row.line
    snippet := shorten row.text 280
    score := 1 / (1 + max score_raw 0) }

/-- `search_knowledge(query, db_path, limit)` from `kb.py`.  The SQLite
FTS engine (connection, MATCH, ORDER BY) is the external `engine`
parameter returning the ordered rows for a query; the `LIMIT` clause is
applied when `max(limit, 0) > 0`.  The boolean records whether a storage
connection was opened. -/
def search_knowledge (engine : String → List FtsQueryRow) (query : String)
    (limit : ℤ) : Except KbError (List SearchHit) × Bool :=
  let normalized_query := normalizeQuery query
  if normalized_query = "" then (.error .invalidQuery, false)
  else
    let limit_clause := max limit 0
    let rows := engine normalized_query
    let rows := if limit_clause > 0 then rows.take limit_clause.toNat else rows
    (.ok (rows.map searchHitOfRow), true)

/-! ## Heuristic recall cache (`recall.py`) -/

/-- An eligible file as seen by `_iter_source_files`: its absolute path,
its `stat().st_mtime` and its text content.  The directory walk is
filesystem machinery, so the recall model receives the eligible-file
listing in iteration order. -/
structure FsFile where
  path : String
  mtime : ℚ
  text : String
  deriving DecidableEq, Repr

/-- `_IndexedSnippet` dataclass (`excerpt` is computed on demand). -/
structure IndexedSnippet where
  path : String
  rel_path : String
  title : String
  sec : Option String
  line : Nat
  text : String
  deriving DecidableEq, Repr

/-- `RecallResult` dataclass. -/
structure RecallResult where
  path : String
  title : String
  excerpt : String
  score : ℚ
  line : Option Nat
  deriving DecidableEq, Repr

/-- `pathlib.PurePath.name`: the final path component. -/
def nameOf (p : String) : String :=
  ⟨(p.data.reverse.takeWhile (fun c => c ≠ '/')).reverse⟩

/-- `pathlib.PurePath.stem`: the final component without its last suffix. -/
def stemOf (p : String) : String :=
  let n := (nameOf p).data
  let rev := n.reverse
  let ext := rev.takeWhile (fun c => c ≠ '.')
  if ext.length = rev.length then ⟨n⟩
  else
    let stem := (rev.drop (ext.length + 1)).reverse
    if stem.isEmpty then ⟨n⟩ else ⟨stem⟩

/-- Title fallback shared by `kb.py` and `recall.py`:
`path.stem.replace("_", " ").replace("-", " ") or path.name`. -/
def fallbackTitle (p : String) : String :=
  let t := ((stemOf p).replace "_" " ").replace "-" " "
  if t = "" then nameOf p else t

/-- `_build_index(root)`: read each eligible file, segment it, substitute
the filename-derived title when none was found, and emit one snippet per
paragraph.  `relOf` stands for `_relative_path(·, root)` (pure path
arithmetic against the fixed root). -/
def build_index (relOf : String → String) (fs : List FsFile) : List IndexedSnippet :=
  fs.flatMap (fun f =>
    let tp := extract_paragraphs f.text
    let title := if tp.1 = "" then fallbackTitle f.path else tp.1
    tp.2.map (fun b => ⟨f.path, relOf f.path, title, b.sec, b.line, b.text⟩))

/-- `path.stat().st_mtime` with the `FileNotFoundError → 0.0` fallback
used by both signature builders. -/
def statMtime (fs : List FsFile) (p : String) : ℚ :=
  match fs.find? (fun f => f.path = p) with
  | some f => f.mtime
  | none => 0

/-- `_build_signature(snippets)`: path → observed mtime over the snippet
paths (one dict entry per distinct path). -/
def build_signature (fs : List FsFile) (snips : List IndexedSnippet) :
    List (String × ℚ) :=
  snips.foldl (fun sig s => dictUpd sig s.path (statMtime fs s.path)) []

/-- `_collect_signature(root)`: path → current mtime for every eligible
file. -/
def collect_signature (fs : List FsFile) : List (String × ℚ) :=
  fs.foldl (fun sig f => dictUpd sig f.path f.mtime) []

/-- Python `dict` equality on signatures: same key-value sets, insertion
order irrelevant. -/
def sigEq (a b : List (String × ℚ)) : Bool :=
  a.all (fun p => b.lookup p.1 == some p.2) && b.all (fun p => a.lookup p.1 == some p.2)

/-- The process-global pair `_INDEX_CACHE[root]` / `_INDEX_SIGNATURES[root]`
for one resolved root (the two dicts are always populated together). -/
abbrev RecallCache := Option (List IndexedSnippet × List (String × ℚ))

/-- `_load_index(root)`: serve the cached snippet tuple when the re-stated
signature equals the cached one, else rebuild from disk.  Returns the
snippets served, the updated cache entry, and whether a rebuild (file
re-reading) happened. -/
def load_index (relOf : String → String) (cache : RecallCache) (fs : List FsFile) :
    List IndexedSnippet × RecallCache × Bool :=
  match cache with
  | some (snips, sig) =>
    if sigEq (collect_signature fs) sig then (snips, some (snips, sig), false)
    else
      let snips2 := build_index relOf fs
      (snips2, some (snips2, build_signature fs snips2), true)
  | none =>
    let snips2 := build_index relOf fs
    (snips2, some (snips2, build_signature fs snips2), true)

/-- Strict comparison on the Python sort key
`(-score, snippet.rel_path, snippet.line)`. -/
def scoredLt (a b : ℚ × IndexedSnippet) : Bool :=
  if a.1 ≠ b.1 then decide (b.1 < a.1)
  else if a.2.rel_path ≠ b.2.rel_path then decide (a.2.rel_path < b.2.rel_path)
  else decide (a.2.line < b.2.line)

/-- Sorted insertion (stable for ties with earlier elements first). -/
def insertSorted {α : Type} (lt : α → α → Bool) (x : α) : List α → List α
  | [] => [x]
  | y :: rest => if lt x y then x :: y :: rest else y :: insertSorted lt x rest

/-- Insertion sort modelling Python's stable `list.sort(key=...)`. -/
def sortByKey {α : Type} (lt : α → α → Bool) : List α → List α
  | [] => []
  | x :: rest => insertSorted lt x (sortByKey lt rest)

/-- Result shaping of `recall_knowledge`: shortened excerpt, prefixed with
the section heading when one is present (truthy) and not already part of
the excerpt. -/
def recallResultOf (p : ℚ × IndexedSnippet) : RecallResult :=
  let excerpt := shorten p.2.text 280
  let excerpt :=
    match p.2.sec with
    | some sec =>
      if sec ≠ "" ∧ hasSub excerpt sec = false then sec ++ ": " ++ excerpt else excerpt
    | none => excerpt
  ⟨p.2.rel_path, p.2.title, excerpt, p.1, some p.2.line⟩

/-- `recall_knowledge(query, limit, kb_root)` from `recall.py`.  The
process-global cache entry for the resolved root is passed and returned
explicitly; the boolean records whether the cache/filesystem was
consulted at all. -/
def recall_knowledge (relOf : String → String) (query : String) (limit : ℤ)
    (fs : List FsFile) (cache : RecallCache) :
    Except KbError (List RecallResult) × Bool × RecallCache :=
  let normalized_query := normalizeQuery query
  if normalized_query = "" then (.error .invalidQuery, false, cache)
  else
    let query_tokens := tokenize normalized_query
    if query_tokens = [] then (.error .noAlnumToken, false, cache)
    else
      let li := load_index relOf cache fs
      let query_lower := pyLower normalized_query
      let scored := (li.1.map
        (fun s => (score_snippet s.text query_tokens query_lower, s))).filter
        (fun p => decide (p.1 > 0))
      if scored.isEmpty then (.ok [], true, li.2.1)
      else
        let sorted := sortByKey scoredLt scored
        let top := if limit > 0 then sorted.take limit.toNat else sorted
        (.ok (top.map recallResultOf), true, li.2.1)

/-! ## Fingerprint store and incremental indexer (`kb.py` / SQLite) -/

/-- A `kb_sources` row. -/
structure SourceRow where
  id : Nat
  path : String
  title : String
  fingerprint : String
  last_indexed_ts : String
  deriving DecidableEq, Repr

/-- A `kb_chunks` row (`sec` renders the `section` column). -/
structure ChunkRow where
  id : Nat
  source_id : Nat
  order_index : Nat
  sec : Option String
  line : Nat
  text : String
  deriving DecidableEq, Repr

/-- A `kb_chunks_fts` row: external-content rowid plus the indexed text. -/
structure FtsRow where
  rowid : Nat
  text : String
  deriving DecidableEq, Repr

/-- The SQLite table contents the indexer touches, with the auto-increment
counters that supply `cursor.lastrowid`. -/
structure Db where
  sources : List SourceRow
  chunks : List ChunkRow
  fts : List FtsRow
  nextSourceId : Nat
  nextChunkId : Nat
  deriving DecidableEq, Repr

/-- `INSERT INTO kb_sources (path, title, fingerprint, last_indexed_ts)`,
returning `cursor.lastrowid`. -/
def dbInsertSource (path title fingerprint ts : String) (db : Db) : Nat × Db :=
  (db.nextSourceId,
    { db with
      sources := db.sources ++ [⟨db.nextSourceId, path, title, fingerprint, ts⟩],
      nextSourceId := db.nextSourceId + 1 })

/-- `UPDATE kb_sources SET title = ?, fingerprint = ?, last_indexed_ts = ?
WHERE id = ?`. -/
def dbUpdateSource (sid : Nat) (title fingerprint ts : String) (db : Db) : Db :=
  { db with
    sources := db.sources.map (fun r =>
      if r.id = sid then
        { r with title := title, fingerprint := fingerprint, last_indexed_ts := ts }
      else r) }

/-- `DELETE FROM kb_sources WHERE id = ?`. -/
def dbDeleteSource (sid : Nat) (db : Db) : Db :=
  { db with sources := db.sources.filter (fun r => r.id ≠ sid) }

/-- `INSERT INTO kb_chunks (source_id, order_index, section, line, text)`,
returning `cursor.lastrowid`. -/
def dbInsertChunk (sid oi : Nat) (sec : Option String) (line : Nat)
    (text : String) (db : Db) : Nat × Db :=
  (db.nextChunkId,
    { db with
      chunks := db.chunks ++ [⟨db.nextChunkId, sid, oi, sec, line, text⟩],
      nextChunkId := db.nextChunkId + 1 })

/-- `INSERT INTO kb_chunks_fts(rowid, text) VALUES (?, ?)`. -/
def dbInsertFts (rowid : Nat) (text : String) (db : Db) : Db :=
  { db with fts := db.fts ++ [⟨rowid, text⟩] }

/-- `_remove_source_chunks(conn, source_id)`: delete the fts rows whose
rowid is an id of this source's chunks, then the chunks themselves. -/
def remove_source_chunks (sid : Nat) (db : Db) : Db :=
  let ids := (db.chunks.filter (fun c => c.source_id = sid)).map ChunkRow.id
  let db1 := { db with fts := db.fts.filter (fun r => r.rowid ∉ ids) }
  { db1 with chunks := db1.chunks.filter (fun c => c.source_id ≠ sid) }

/-- The `for index, block in enumerate(paragraphs)` loop of
`_insert_chunks`, threading the enumerate index and the inserted count. -/
def insert_chunks_from (sid : Nat) : List Paragraph → Nat → Nat → Db → Nat × Db
  | [], _, count, db => (count, db)
  | block :: rest, idx, count, db =>
    let text := pyStrip block.text
    if text = "" then insert_chunks_from sid rest (idx + 1) count db
    else
      let r1 := dbInsertChunk sid idx block.sec block.line text db
      let db2 := dbInsertFts r1.1 text r1.2
      insert_chunks_from sid rest (idx + 1) (count + 1) db2

/-- `_insert_chunks(conn, source_id, paragraphs)`: returns the number of
chunks inserted. -/
def insert_chunks (sid : Nat) (paragraphs : List Paragraph) (db : Db) : Nat × Db :=
  insert_chunks_from sid paragraphs 0 0 db

/-- `replace_chunks(source_id, paragraphs)` of the store adapter:
`_remove_source_chunks` followed by `_insert_chunks`, exactly as
`index_knowledge` performs it for every changed source. -/
def replace_chunks (sid : Nat) (paragraphs : List Paragraph) (db : Db) : Nat × Db :=
  insert_chunks sid paragraphs (remove_source_chunks sid db)

/-- Claim-side description of the chunk rows `replace_chunks` inserts for
the (enumerate-position, paragraph) pairs that survive the emptiness
check, with consecutive rowids from `cid`. -/
def claimChunks (sid : Nat) : List (Nat × Paragraph) → Nat → List ChunkRow
  | [], _ => []
  | ip :: rest, cid =>
    ⟨cid, sid, ip.1, ip.2.sec, ip.2.line, pyStrip ip.2.text⟩ ::
      claimChunks sid rest (cid + 1)

/-- Claim-side description of the matching full-text rows. -/
def claimFts : List (Nat × Paragraph) → Nat → List FtsRow
  | [], _ => []
  | ip :: rest, cid => ⟨cid, pyStrip ip.2.text⟩ :: claimFts rest (cid + 1)

/-- An eligible file as `index_knowledge` sees it: the repository-relative
key `relative_path(path, root)`, the original path feeding the
filename-derived title fallback, and the decoded text (`errors="ignore"`
decoding is the identity on the already-decoded text carried here). -/
structure SrcFile where
  rel : String
  path : String
  text : String
  deriving DecidableEq, Repr

/-- The per-path record of the `existing_sources` dict:
`{"id": row["id"], "fingerprint": row["fingerprint"]}`. -/
structure SrcInfo where
  id : Nat
  fingerprint : String
  deriving DecidableEq, Repr

/-- `existing_sources = {row["path"]: {...} for row in SELECT id, path,
fingerprint FROM kb_sources}` — a Python dict comprehension, later rows
winning. -/
def buildExisting (rows : List SourceRow) : List (String × SrcInfo) :=
  rows.foldl (fun m r => dictUpd m r.path ⟨r.id, r.fingerprint⟩) []

/-- The `stats` counters of `index_knowledge`. -/
structure Stats where
  indexed : Nat
  skipped : Nat
  deleted : Nat
  chunks : Nat
  deriving DecidableEq, Repr

/-- State threaded through the per-file loop of `index_knowledge`. -/
structure LoopSt where
  seen : List String
  existing : List (String × SrcInfo)
  db : Db
  stats : Stats
  deriving DecidableEq, Repr

/-- One iteration of the `for path in sources` loop of `index_knowledge`:
`fp` is the content fingerprint (SHA-1, an opaque function of the text)
and `now` the timestamp literal. -/
def fileStep (fp : String → String) (now : String) (force : Bool)
    (st : LoopSt) (f : SrcFile) : LoopSt :=
  let seen := f.rel :: st.seen
  let fingerprint := fp f.text
  let tp := extract_paragraphs f.text
  let title := if tp.1 = "" then fallbackTitle f.path else tp.1
  match List.lookup f.rel st.existing with
  | some info =>
    if force = false ∧ info.fingerprint = fingerprint then
      { st with seen := seen,
                stats := { st.stats with skipped := st.stats.skipped + 1 } }
    else
      let db1 := remove_source_chunks info.id st.db
      let db2 := dbUpdateSource info.id title fingerprint now db1
      let r := insert_chunks info.id tp.2 db2
      ⟨seen, st.existing, r.2,
        { st.stats with indexed := st.stats.indexed + 1,
                        chunks := st.stats.chunks + r.1 }⟩
  | none =>
    let r0 := dbInsertSource f.rel title fingerprint now st.db
    let existing := dictUpd st.existing f.rel ⟨r0.1, fingerprint⟩
    let r := insert_chunks r0.1 tp.2 r0.2
    ⟨seen, existing, r.2,
      { st.stats with indexed := st.stats.indexed + 1,
                      chunks := st.stats.chunks + r.1 }⟩

/-- The `for path in sources` loop. -/
def fileLoop (fp : String → String) (now : String) (force : Bool) :
    List SrcFile → LoopSt → LoopSt
  | [], st => st
  | f :: rest, st => fileLoop fp now force rest (fileStep fp now force st f)

/-- The deletion pass over `existing_sources.items()`: drop every source
whose path was not seen in this run. -/
def deleteLoop : List (String × SrcInfo) → List String → Db → Stats → Db × Stats
  | [], _, db, stats => (db, stats)
  | e :: rest, seen, db, stats =>
    if e.1 ∈ seen then deleteLoop rest seen db stats
    else
      deleteLoop rest seen
        (dbDeleteSource e.2.id (remove_source_chunks e.2.id db))
        { stats with deleted := stats.deleted + 1 }

/-- `index_knowledge(db_path, kb_root, force)` from `kb.py`, for a root
whose eligible-file enumeration is `fs` (empty when the root does not
exist): load the existing sources, reconcile every file against them, then
delete the sources whose path was not seen.  The `existing_sources.items()`
iteration also visits entries inserted during the file loop; their paths
are always in `seen`. -/
def index_knowledge (fp : String → String) (now : String) (force : Bool)
    (fs : List SrcFile) (db : Db) : Stats × Db :=
  let st0 : LoopSt := ⟨[], buildExisting db.sources, db, ⟨0, 0, 0, 0⟩⟩
  let st := fileLoop fp now force fs st0
  let r := deleteLoop st.existing st.seen st.db st.stats
  (r.2, r.1)

/-- Well-formedness guaranteed by the SQLite schema: `path` is UNIQUE,
`id` is the INTEGER PRIMARY KEY, and the auto-increment counter exceeds
every existing id. -/
def DbWf (db : Db) : Prop :=
  (db.sources.map SourceRow.path).Nodup ∧
  (db.sources.map SourceRow.id).Nodup ∧
  ∀ r ∈ db.sources, r.id < db.nextSourceId

/-! ## Connection-level model (`db_commands.connect` + `index_knowledge`):
every SQL statement can raise `sqlite3.Error`; the single `conn.commit()`
at the end of `index_knowledge` publishes the open transaction, and the
`finally: conn.close()` of the `connect` context manager rolls back an
uncommitted transaction.  Schema migrations (`migration_manager.apply_all`)
touch only the schema, not the rows modelled here. -/

/-- Failure oracle: whether the n-th statement executed on the connection
raises `sqlite3.Error`. -/
abbrev Oracle := Nat → Bool

/-- A connection as `db_commands.connect` hands it out: the durable
(committed) state, the transaction-visible pending state, the closed flag
and the statement counter. -/
structure Conn where
  base : Db
  pending : Db
  closed : Bool
  ops : Nat
  deriving Repr

/-- `sqlite3.connect(...)`: the fresh transaction sees the durable state. -/
def openConn (db : Db) : Conn := ⟨db, db, false, 0⟩

/-- One `conn.execute(...)` (query or DML, possibly reading
`cursor.lastrowid`): raises when the oracle fires, else runs against the
transaction-visible state. -/
def tryRun {α : Type} (o : Oracle) (g : Db → α × Db) (c : Conn) :
    Except KbError α × Conn :=
  if o c.ops then (.error .storage, { c with ops := c.ops + 1 })
  else (.ok (g c.pending).1, { c with pending := (g c.pending).2, ops := c.ops + 1 })

/-- `conn.commit()`: publish the pending state. -/
def tryCommit (o : Oracle) (c : Conn) : Except KbError Unit × Conn :=
  if o c.ops then (.error .storage, { c with ops := c.ops + 1 })
  else (.ok (), { c with base := c.pending, ops := c.ops + 1 })

/-- `conn.close()` in the `finally` of `connect`: an uncommitted
transaction is rolled back. -/
def closeConn (c : Conn) : Conn := { c with closed := true, pending := c.base }

/-- First statement of `_remove_source_chunks`: delete the fts rows of the
source's chunks. -/
def dbDeleteFtsOfSource (sid : Nat) (db : Db) : Db :=
  { db with fts := db.fts.filter (fun r =>
      r.rowid ∉ (db.chunks.filter (fun c => c.source_id = sid)).map ChunkRow.id) }

/-- Second statement of `_remove_source_chunks`: delete the chunks. -/
def dbDeleteChunksOfSource (sid : Nat) (db : Db) : Db :=
  { db with chunks := db.chunks.filter (fun c => c.source_id ≠ sid) }

/-- The `_insert_chunks` loop, statement by statement. -/
def insert_chunks_from_conn (o : Oracle) (sid : Nat) :
    List Paragraph → Nat → Nat → Conn → Except KbError Nat × Conn
  | [], _, count, c => (.ok count, c)
  | block :: rest, idx, count, c =>
    let text := pyStrip block.text
    if text = "" then insert_chunks_from_conn o sid rest (idx + 1) count c
    else
      match tryRun o (dbInsertChunk sid idx block.sec block.line text) c with
      | (.error e, c1) => (.error e, c1)
      | (.ok chunk_id, c1) =>
        match tryRun o (fun db => ((), dbInsertFts chunk_id text db)) c1 with
        | (.error e, c2) => (.error e, c2)
        | (.ok _, c2) => insert_chunks_from_conn o sid rest (idx + 1) (count + 1) c2

/-- The dict-and-counter part of the file-loop state (the database part
lives in the connection). -/
structure LoopCtx where
  seen : List String
  existing : List (String × SrcInfo)
  stats : Stats
  deriving Repr

/-- One file iteration of `index_knowledge` at the statement level. -/
def fileStepConn (o : Oracle) (fp : String → String) (now : String)
    (force : Bool) (ctx : LoopCtx) (f : SrcFile) (c : Conn) :
    Except KbError LoopCtx × Conn :=
  let seen := f.rel :: ctx.seen
  let fingerprint := fp f.text
  let tp := extract_paragraphs f.text
  let title := if tp.1 = "" then fallbackTitle f.path else tp.1
  match List.lookup f.rel ctx.existing with
  | some info =>
    if force = false ∧ info.fingerprint = fingerprint then
      (.ok ⟨seen, ctx.existing,
        { ctx.stats with skipped := ctx.stats.skipped + 1 }⟩, c)
    else
      match tryRun o (fun db => ((), dbDeleteFtsOfSource info.id db)) c with
      | (.error e, c1) => (.error e, c1)
      | (.ok _, c1) =>
        match tryRun o (fun db => ((), dbDeleteChunksOfSource info.id db)) c1 with
        | (.error e, c2) => (.error e, c2)
        | (.ok _, c2) =>
          match tryRun o
              (fun db => ((), dbUpdateSource info.id title fingerprint now db)) c2 with
          | (.error e, c3) => (.error e, c3)
          | (.ok _, c3) =>
            match insert_chunks_from_conn o info.id tp.2 0 0 c3 with
            | (.error e, c4) => (.error e, c4)
            | (.ok n, c4) =>
              (.ok ⟨seen, ctx.existing,
                { ctx.stats with indexed := ctx.stats.indexed + 1,
                                 chunks := ctx.stats.chunks + n }⟩, c4)
  | none =>
    match tryRun o (dbInsertSource f.rel title fingerprint now) c with
    | (.error e, c1) => (.error e, c1)
    | (.ok sid, c1) =>
      match insert_chunks_from_conn o sid tp.2 0 0 c1 with
      | (.error e, c2) => (.error e, c2)
      | (.ok n, c2) =>
        (.ok ⟨seen, dictUpd ctx.existing f.rel ⟨sid, fingerprint⟩,
          { ctx.stats with indexed := ctx.stats.indexed + 1,
                           chunks := ctx.stats.chunks + n }⟩, c2)

/-- The statement-level file loop. -/
def fileLoopConn (o : Oracle) (fp : String → String) (now : String)
    (force : Bool) : List SrcFile → LoopCtx → Conn →
    Except KbError LoopCtx × Conn
  | [], ctx, c => (.ok ctx, c)
  | f :: rest, ctx, c =>
    match fileStepConn o fp now force ctx f c with
    | (.error e, c1) => (.error e, c1)
    | (.ok ctx1, c1) => fileLoopConn o fp now force rest ctx1 c1

/-- The statement-level deletion pass. -/
def deleteLoopConn (o : Oracle) : List (String × SrcInfo) → List String →
    Stats → Conn → Except KbError Stats × Conn
  | [], _, stats, c => (.ok stats, c)
  | e :: rest, seen, stats, c =>
    if e.1 ∈ seen then deleteLoopConn o rest seen stats c
    else
      match tryRun o (fun db => ((), dbDeleteFtsOfSource e.2.id db)) c with
      | (.error err, c1) => (.error err, c1)
      | (.ok _, c1) =>
        match tryRun o (fun db => ((), dbDeleteChunksOfSource e.2.id db)) c1 with
        | (.error err, c2) => (.error err, c2)
        | (.ok _, c2) =>
          match tryRun o (fun db => ((), dbDeleteSource e.2.id db)) c2 with
          | (.error err, c3) => (.error err, c3)
          | (.ok _, c3) =>
            deleteLoopConn o rest seen
              { stats with deleted := stats.deleted + 1 } c3

/-- `index_knowledge` at the statement level, inside the
`with db_commands.connect(db_path) as conn` block: read the source rows,
reconcile each file, delete vanished sources, commit once at the end; the
connection is closed on every exit path. -/
def indexKnowledgeConn (o : Oracle) (fp : String → String) (now : String)
    (force : Bool) (fs : List SrcFile) (db : Db) : Except KbError Stats × Conn :=
  match tryRun o (fun d => (d.sources, d)) (openConn db) with
  | (.error e, c1) => (.error e, closeConn c1)
  | (.ok rows, c1) =>
    match fileLoopConn o fp now force fs ⟨[], buildExisting rows, ⟨0, 0, 0, 0⟩⟩ c1 with
    | (.error e, c2) => (.error e, closeConn c2)
    | (.ok ctx, c2) =>
      match deleteLoopConn o ctx.existing ctx.seen ctx.stats c2 with
      | (.error e, c3) => (.error e, closeConn c3)
      | (.ok stats, c3) =>
        match tryCommit o c3 with
        | (.error e, c4) => (.error e, closeConn c4)
        | (.ok _, c4) => (.ok stats, closeConn c4)

/-- C10's claim-side condition: the text contains no run of two or more
adjacent alphanumeric characters (a run of length at least 2 exists exactly
when two adjacent characters are both alphanumeric). -/
def noAlnumRun2 (l : List Char) : Prop :=
  List.Chain' (fun a b => ¬(a.isAlphanum = true ∧ b.isAlphanum = true)) l

/-! # Theorems -/

/-! ## Dictionary and counting lemmas -/

theorem keys_dictUpd {β : Type} (m : List (String × β)) (k : String) (v : β) :
    (dictUpd m k v).map Prod.fst =
      if k ∈ m.map Prod.fst then m.map Prod.fst else m.map Prod.fst ++ [k] := by
  induction m with
  | nil => simp [dictUpd]
  | cons p rest ih =>
    obtain ⟨k', v'⟩ := p
    by_cases h : k' = k
    · subst h
      simp [dictUpd]
    · simp only [dictUpd, if_neg h, List.map_cons]
      rw [ih]
      by_cases hk : k ∈ rest.map Prod.fst
      · simp [hk, Ne.symm h]
      · simp [hk, Ne.symm h]

theorem mem_keys_dictUpd {β : Type} (m : List (String × β)) (k : String) (v : β)
    (x : String) :
    x ∈ (dictUpd m k v).map Prod.fst ↔ x ∈ m.map Prod.fst ∨ x = k := by
  rw [keys_dictUpd]
  split
  · rename_i h
    constructor
    · exact Or.inl
    · rintro (hx | rfl)
      · exact hx
      · exact h
  · simp [List.mem_append]

theorem vals_dictUpd {β : Type} (g : String → β) (m : List (String × β))
    (hm : ∀ p ∈ m, p.2 = g p.1) (k : String) :
    ∀ p ∈ dictUpd m k (g k), p.2 = g p.1 := by
  induction m with
  | nil =>
    intro p hp
    simp only [dictUpd, List.mem_singleton] at hp
    subst hp
    rfl
  | cons q rest ih =>
    obtain ⟨k', v'⟩ := q
    intro p hp
    by_cases h : k' = k
    · rw [show dictUpd ((k', v') :: rest) k (g k) = (k, g k) :: rest by
        simp [dictUpd, h]] at hp
      rw [List.mem_cons] at hp
      rcases hp with rfl | hp
      · rfl
      · exact hm p (List.mem_cons_of_mem _ hp)
    · rw [show dictUpd ((k', v') :: rest) k (g k) = (k', v') :: dictUpd rest k (g k) by
        simp [dictUpd, h]] at hp
      rw [List.mem_cons] at hp
      rcases hp with rfl | hp
      · exact hm (k', v') (List.mem_cons_self _ _)
      · exact ih (fun q hq => hm q (List.mem_cons_of_mem _ hq)) p hp

theorem build_vals_spec (g : String → ℕ) (tokens : List String) :
    ∀ m, (∀ p ∈ m, p.2 = g p.1) →
      ∀ p ∈ tokens.foldl (fun m t => dictUpd m t (g t)) m, p.2 = g p.1 := by
  induction tokens with
  | nil => intro m hm; simpa using hm
  | cons t rest ih =>
    intro m hm
    simp only [List.foldl_cons]
    exact ih _ (vals_dictUpd g m hm t)

theorem build_keys_mem (g : String → ℕ) (tokens : List String) :
    ∀ m x, (x ∈ (tokens.foldl (fun m t => dictUpd m t (g t)) m).map Prod.fst ↔
      x ∈ m.map Prod.fst ∨ x ∈ tokens) := by
  induction tokens with
  | nil => intro m x; simp
  | cons t rest ih =>
    intro m x
    simp only [List.foldl_cons]
    rw [ih, mem_keys_dictUpd]
    simp only [List.mem_cons]
    tauto

theorem build_keys_nodup (g : String → ℕ) (tokens : List String) :
    ∀ m, (m.map Prod.fst).Nodup →
      ((tokens.foldl (fun m t => dictUpd m t (g t)) m).map Prod.fst).Nodup := by
  induction tokens with
  | nil => intro m hm; simpa using hm
  | cons t rest ih =>
    intro m hm
    simp only [List.foldl_cons]
    apply ih
    rw [keys_dictUpd]
    split
    · exact hm
    · rename_i h
      simp [List.nodup_append, hm, h]

/-- The `values` dict of `_score_snippet` sums, over `ℚ`, to the sum of the
occurrence counts over the distinct tokens. -/
theorem dict_sum_eq (g : String → ℕ) (tokens : List String) :
    (((tokens.foldl (fun m t => dictUpd m t (g t)) []).map Prod.snd).sum : ℚ) =
      (tokens.dedup.map (fun t => (g t : ℚ))).sum := by
  have hvals := build_vals_spec g tokens [] (by simp)
  have hkeys : (((tokens.foldl (fun m t => dictUpd m t (g t)) []).map Prod.fst)).Nodup :=
    build_keys_nodup g tokens [] (by simp)
  have hmem : ∀ x, x ∈ (tokens.foldl (fun m t => dictUpd m t (g t)) []).map Prod.fst ↔
      x ∈ tokens.dedup := by
    intro x
    rw [build_keys_mem]
    simp
  have hperm := (List.perm_ext_iff_of_nodup hkeys (List.nodup_dedup _)).2 hmem
  have h1 : ((tokens.foldl (fun m t => dictUpd m t (g t)) []).map Prod.snd).sum =
      (((tokens.foldl (fun m t => dictUpd m t (g t)) []).map Prod.fst).map g).sum := by
    rw [List.map_map]
    congr 1
    apply List.map_congr_left
    intro p hp
    exact hvals p hp
  rw [h1, Nat.cast_list_sum, List.map_map]
  exact (hperm.map (fun k => (g k : ℚ))).sum_eq

/-- A non-overlapping occurrence count of a non-empty needle is zero exactly
when the needle is not a substring. -/
theorem pyCountChars_eq_zero (c0 : Char) (ns : List Char) :
    ∀ s, pyCountChars s (c0 :: ns) = 0 ↔ hasSubChars s (c0 :: ns) = false := by
  intro s
  induction s with
  | nil => simp [pyCountChars, hasSubChars]
  | cons c t ih =>
    rw [pyCountChars, hasSubChars]
    by_cases hp : isPrefixList (c0 :: ns) (c :: t) = true
    · simp [hp]
    · simp only [Bool.not_eq_true] at hp
      simp [hp, ih]

theorem pyCount_eq_zero (s t : String) (ht : t ≠ "") :
    pyCount s t = 0 ↔ hasSub s t = false := by
  have hd : t.data ≠ [] := by
    intro h
    apply ht
    cases t
    simp_all
  obtain ⟨c0, ns, he⟩ := List.exists_cons_of_ne_nil hd
  unfold pyCount hasSub
  rw [he]
  exact pyCountChars_eq_zero c0 ns s.data

/-- C5: `_score_snippet` computes exactly the claimed piecewise score: with
no token occurrence and no literal-substring hit, the quick similarity ratio
if it exceeds 0.6 and otherwise 0; else the sum of the per-distinct-token
occurrence counts, plus 1 for a literal substring hit, plus 0.25 per distinct
token occurring in the text.  (The occurrence total is per distinct token:
the code stores counts in a dict keyed by token, so duplicated query tokens
are counted once.) -/
theorem recall_score_formula (text : String) (tokens : List String)
    (query_lower : String) (hne : tokens ≠ []) (hnn : ∀ t ∈ tokens, t ≠ "") :
    score_snippet text tokens query_lower =
      claimRecallScore (pyLower text) tokens query_lower := by
  unfold score_snippet claimRecallScore
  dsimp only
  have hdz : (((tokens.foldl (fun m t => dictUpd m t (pyCount (pyLower text) t)) []).map
        Prod.snd).sum = 0) ↔ (∀ t ∈ tokens, hasSub (pyLower text) t = false) := by
    rw [List.sum_eq_zero_iff]
    constructor
    · intro h t htok
      have hk : t ∈ (tokens.foldl (fun m t => dictUpd m t (pyCount (pyLower text) t)) []).map
          Prod.fst := by
        rw [build_keys_mem]
        simp [htok]
      obtain ⟨p, hp, hfst⟩ := List.mem_map.mp hk
      have hv := build_vals_spec (fun t => pyCount (pyLower text) t) tokens [] (by simp) p hp
      have hz : p.2 = 0 := h p.2 (List.mem_map.mpr ⟨p, hp, rfl⟩)
      rw [← pyCount_eq_zero _ _ (hnn t htok), ← hfst]
      simp only [] at hv
      rw [← hv]
      exact hz
    · intro h x hx
      obtain ⟨p, hp, hsnd⟩ := List.mem_map.mp hx
      have hv := build_vals_spec (fun t => pyCount (pyLower text) t) tokens [] (by simp) p hp
      have hk : p.1 ∈ tokens := by
        have : p.1 ∈ (tokens.foldl (fun m t => dictUpd m t (pyCount (pyLower text) t)) []).map
            Prod.fst := List.mem_map.mpr ⟨p, hp, rfl⟩
        rw [build_keys_mem] at this
        simpa using this
      have hz := (pyCount_eq_zero (pyLower text) p.1 (hnn _ hk)).mpr (h _ hk)
      simp only [] at hv
      rw [← hsnd, hv]
      exact hz
  have hsum := dict_sum_eq (fun t => pyCount (pyLower text) t) tokens
  simp only [] at hsum
  have hiff : ((((tokens.foldl (fun m t => dictUpd m t (pyCount (pyLower text) t)) []).map
        Prod.snd).sum = 0) ∧ hasSub (pyLower text) query_lower = false) ↔
      ((∀ t ∈ tokens, hasSub (pyLower text) t = false) ∧
        hasSub (pyLower text) query_lower = false) :=
    and_congr_left (fun _ => hdz)
  rw [if_congr hiff rfl rfl]
  by_cases hB : (∀ t ∈ tokens, hasSub (pyLower text) t = false) ∧
      hasSub (pyLower text) query_lower = false
  · rw [if_pos hB, if_pos hB]
  · rw [if_neg hB, if_neg hB, ← hsum]
    by_cases hq : hasSub (pyLower text) query_lower = true
    · rw [if_pos hq, if_pos hq]
    · rw [if_neg hq, if_neg hq]
      ring

/-- C5 witness at a concrete snippet, token list and query. -/
theorem recall_score_formula_witness :
    score_snippet "Alpha beta gamma" ["beta", "delta"] "delta query" =
      claimRecallScore (pyLower "Alpha beta gamma") ["beta", "delta"] "delta query" :=
  recall_score_formula "Alpha beta gamma" ["beta", "delta"] "delta query"
    (by decide) (by decide)

/-- C9: every hit built from an engine row carries
`score = 1 / (1 + max(rank, 0))` (missing rank read as 0); that score is
always in the half-open interval (0, 1]; it is non-increasing in the
clamped rank; and every hit returned by a successful search is built from
a row that way. -/
theorem search_score_normalization :
    (∀ row : FtsQueryRow,
        (searchHitOfRow row).score = 1 / (1 + max (row.rank.getD 0) 0) ∧
        0 < (searchHitOfRow row).score ∧ (searchHitOfRow row).score ≤ 1) ∧
    (∀ r1 r2 : FtsQueryRow,
        max (r1.rank.getD 0) 0 ≤ max (r2.rank.getD 0) 0 →
        (searchHitOfRow r2).score ≤ (searchHitOfRow r1).score) ∧
    (∀ (engine : String → List FtsQueryRow) (query : String) (limit : ℤ)
        (res : List SearchHit) (b : Bool),
        search_knowledge engine query limit = (.ok res, b) →
        ∀ h ∈ res, ∃ row, h = searchHitOfRow row) := by
  have hpos : ∀ row : FtsQueryRow, (0 : ℚ) < 1 + max (row.rank.getD 0) 0 := by
    intro row
    have := le_max_right (row.rank.getD 0) 0
    linarith
  refine ⟨?_, ?_, ?_⟩
  · intro row
    refine ⟨rfl, ?_, ?_⟩
    · exact one_div_pos.mpr (hpos row)
    · rw [searchHitOfRow]
      dsimp only
      rw [div_le_one (hpos row)]
      have := le_max_right (row.rank.getD 0) 0
      linarith
  · intro r1 r2 hle
    rw [searchHitOfRow, searchHitOfRow]
    dsimp only
    exact one_div_le_one_div_of_le (hpos r1) (by linarith)
  · intro engine query limit res b h
    rw [search_knowledge] at h
    by_cases hn : normalizeQuery query = ""
    · rw [if_pos hn] at h
      simp at h
    · rw [if_neg hn] at h
      dsimp only at h
      injection h with h1 h2
      injection h1 with h1
      intro hit hmem
      rw [← h1] at hmem
      obtain ⟨row, _, hrow⟩ := List.mem_map.mp hmem
      exact ⟨row, hrow.symm⟩

/-- C9 witness: concrete scores behave as claimed for ranks 1 and 3, and a
concrete successful search produces hits built from engine rows. -/
theorem search_score_normalization_witness :
    0 < (searchHitOfRow ⟨"a.md", "A", none, none, "body", some 3⟩).score ∧
    (searchHitOfRow ⟨"a.md", "A", none, none, "body", some 3⟩).score ≤
      (searchHitOfRow ⟨"b.md", "B", none, none, "body", some 1⟩).score ∧
    (∀ h ∈ [searchHitOfRow ⟨"a.md", "A", none, none, "body", some 3⟩],
      ∃ row, h = searchHitOfRow row) :=
  ⟨(search_score_normalization.1 _).2.1,
   search_score_normalization.2.1 _ ⟨"a.md", "A", none, none, "body", some 3⟩
     (by simp),
   search_score_normalization.2.2
     (fun _ => [⟨"a.md", "A", none, none, "body", some 3⟩]) "body" 5 _ _ rfl⟩

/-! ## Basic lemmas about the segmenter -/

/-- `flush()` never changes the detected title. -/
theorem flushSeg_title (s : SegState) : (flushSeg s).title = s.title := by
  unfold flushSeg
  split
  · rfl
  · dsimp only
    split <;> rfl

/-- `flush()` never changes the current section. -/
theorem flushSeg_sec (s : SegState) : (flushSeg s).sec = s.sec := by
  unfold flushSeg
  split
  · rfl
  · dsimp only
    split <;> rfl

/-- C3 counterexample: on the input `"# Title\n\nHello world.\n\nBye."` the
two produced paragraphs do **not** both carry `section = None`; the title
heading also becomes the current section. -/
theorem segmentation_sections_not_none :
    ((extract_paragraphs "# Title\n\nHello world.\n\nBye.").2.map Paragraph.sec) ≠
      [none, none] := by
  decide

/-- C3 (amended): segmenting `"# Title\n\nHello world.\n\nBye."` yields title
`"Title"` and exactly two paragraphs `{text: "Hello world.", line: 3}` and
`{text: "Bye.", line: 5}`, both with `section = "Title"` (the level-1 title
line also sets the current section). -/
theorem segmentation_example :
    extract_paragraphs "# Title\n\nHello world.\n\nBye." =
      ("Title",
        [⟨"Hello world.", 3, some "Title"⟩, ⟨"Bye.", 5, some "Title"⟩]) := by
  decide

/-- C7: a line processed while the fenced-code-block flag is set, and which is
not itself a fence marker, leaves the segmenter state completely unchanged —
it contributes to no paragraph, never sets the title and never changes the
section (in particular a heading-like line inside a fence is inert, and after
an unterminated opening marker every remaining line is skipped); moreover a
fence-marker line itself never changes the title or the section. -/
theorem fenced_block_exclusion :
    (∀ (s : SegState) (idx : Nat) (raw : String),
        s.in_code_block = true →
        pyStartswith (pyStrip raw) "```" = false →
        segStep s idx raw = s) ∧
    (∀ (s : SegState) (idx : Nat) (raw : String),
        pyStartswith (pyStrip raw) "```" = true →
        (segStep s idx raw).title = s.title ∧ (segStep s idx raw).sec = s.sec) := by
  constructor
  · intro s idx raw h1 h2
    simp [segStep, h1, h2]
  · intro s idx raw h
    simp [segStep, h, flushSeg_title, flushSeg_sec]

/-- C7 witness: a concrete heading-like line inside an open fence is a no-op,
and a concrete fence marker line keeps the title. -/
theorem fenced_block_exclusion_witness :
    segStep ⟨some "T", some "S", true, [], 1, []⟩ 2 "# not a heading" =
        ⟨some "T", some "S", true, [], 1, []⟩ ∧
    (segStep ⟨some "T", some "S", false, [], 1, []⟩ 1 "```py").title = some "T" := by
  refine ⟨fenced_block_exclusion.1 _ 2 "# not a heading" rfl (by decide),
    (fenced_block_exclusion.2 _ 1 "```py" (by decide)).1⟩

/-! ## Invalid-query rejection -/

theorem splitWsAux_all_space (l : List Char) (h : l.all pyIsSpace = true) :
    splitWsAux l [] = [] := by
  induction l with
  | nil => rfl
  | cons c rest ih =>
    rw [List.all_cons, Bool.and_eq_true] at h
    rw [splitWsAux, if_pos h.1]
    simpa using ih h.2

theorem normalizeQuery_all_space (q : String) (h : q.data.all pyIsSpace = true) :
    normalizeQuery q = "" := by
  rw [normalizeQuery, splitWsAux_all_space q.data h]
  rfl

/-- C8: a query that is empty or consists only of whitespace is rejected by
both `search_knowledge` and `recall_knowledge` with the invalid-input error,
before any storage connection is opened and before any cache or filesystem
access (the returned boolean records storage/cache access). -/
theorem empty_query_rejected (q : String) (hq : q.data.all pyIsSpace = true) :
    (∀ (engine : String → List FtsQueryRow) (limit : ℤ),
        search_knowledge engine q limit = (.error .invalidQuery, false)) ∧
    (∀ (relOf : String → String) (limit : ℤ) (fs : List FsFile) (cache : RecallCache),
        recall_knowledge relOf q limit fs cache = (.error .invalidQuery, false, cache)) := by
  have hn := normalizeQuery_all_space q hq
  constructor
  · intro engine limit
    rw [search_knowledge]
    rw [hn]
    simp
  · intro relOf limit fs cache
    rw [recall_knowledge]
    rw [hn]
    simp

/-- C8 witness: the concrete whitespace-only query `" \t "` is rejected by
both paths with no storage/cache access. -/
theorem empty_query_rejected_witness :
    search_knowledge (fun _ => []) " \t " 5 = (.error .invalidQuery, false) ∧
    recall_knowledge id " \t " 5 [] none = (.error .invalidQuery, false, none) :=
  ⟨(empty_query_rejected " \t " (by decide)).1 (fun _ => []) 5,
   (empty_query_rejected " \t " (by decide)).2 id 5 [] none⟩

/-! ## Tokenization of queries without alphanumeric runs -/

theorem isAlphanum_of_toLower (a : Char) :
    (a.toLower).isAlphanum = true → a.isAlphanum = true := by
  unfold Char.toLower
  dsimp only
  split
  · rename_i h
    intro _
    obtain ⟨h1, h2⟩ := h
    have hu : a.isUpper = true := by
      unfold Char.isUpper
      rw [Bool.and_eq_true]
      refine ⟨decide_eq_true ?_, decide_eq_true ?_⟩
      · rw [ge_iff_le, UInt32.le_def, BitVec.le_def]
        exact h1
      · rw [UInt32.le_def, BitVec.le_def]
        exact h2
    simp [Char.isAlphanum, Char.isAlpha, hu]
  · exact fun h => h

theorem noAlnumRun2_map_toLower (l : List Char) (h : noAlnumRun2 l) :
    noAlnumRun2 (l.map Char.toLower) := by
  unfold noAlnumRun2 at *
  rw [List.chain'_map]
  exact h.imp fun a b hab hcon =>
    hab ⟨isAlphanum_of_toLower a hcon.1, isAlphanum_of_toLower b hcon.2⟩

theorem tokenizeAux_eq_nil (l : List Char) (h : noAlnumRun2 l) :
    tokenizeAux l [] = [] ∧
      ∀ c : Char, c.isAlphanum = true → noAlnumRun2 (c :: l) →
        tokenizeAux l [c] = [] := by
  induction l with
  | nil =>
    constructor
    · simp [tokenizeAux]
    · intro c _ _
      simp [tokenizeAux]
  | cons d rest ih =>
    obtain ⟨ihA, ihB⟩ := ih h.tail
    constructor
    · rw [tokenizeAux]
      by_cases hd : d.isAlphanum = true
      · rw [if_pos hd]
        exact ihB d hd h
      · rw [if_neg hd, if_neg (by simp)]
        exact ihA
    · intro c hc hchain
      rw [tokenizeAux]
      by_cases hd : d.isAlphanum = true
      · exact absurd ⟨hc, hd⟩ (List.chain'_cons.mp hchain).1
      · rw [if_neg hd, if_neg (by simp)]
        exact ihA

theorem split_join_chain (l : List Char) : ∀ acc : List Char,
    noAlnumRun2 (acc.reverse ++ l) →
    noAlnumRun2 (joinSpace (splitWsAux l acc)) := by
  unfold noAlnumRun2
  induction l with
  | nil =>
    intro acc h
    rw [splitWsAux]
    by_cases ha : acc.isEmpty
    · rw [if_pos ha]
      simp [joinSpace]
    · rw [if_neg ha]
      rw [List.append_nil] at h
      simpa [joinSpace] using h
  | cons c rest ih =>
    intro acc h
    rw [splitWsAux]
    by_cases hc : pyIsSpace c = true
    · rw [if_pos hc]
      have hparts := List.chain'_append.mp h
      have hrest : List.Chain'
          (fun a b => ¬(a.isAlphanum = true ∧ b.isAlphanum = true)) rest :=
        hparts.2.1.tail
      by_cases ha : acc.isEmpty
      · rw [if_pos ha]
        exact ih [] (by simpa using hrest)
      · rw [if_neg ha]
        cases hsp : splitWsAux rest [] with
        | nil =>
          simpa [joinSpace, hsp] using hparts.1
        | cons t ts =>
          have hjoin : joinSpace (acc.reverse :: t :: ts) =
              acc.reverse ++ ' ' :: joinSpace (t :: ts) := rfl
          rw [hjoin]
          rw [List.chain'_append]
          refine ⟨hparts.1, ?_, ?_⟩
          · rw [List.chain'_cons']
            refine ⟨?_, ?_⟩
            · intro y _
              intro hcon
              exact absurd hcon.1 (by decide)
            · have := ih [] (by simpa using hrest)
              rwa [hsp] at this
          · intro x _ y hy
            rw [List.head?_cons, Option.mem_some_iff] at hy
            intro hcon
            rw [← hy] at hcon
            exact absurd hcon.2 (by decide)
    · rw [if_neg hc]
      apply ih (c :: acc)
      rw [List.reverse_cons, List.append_assoc]
      simpa using h

theorem stripChars_chain (l : List Char) (h : noAlnumRun2 l) :
    noAlnumRun2 (stripChars l) := by
  unfold noAlnumRun2 at *
  unfold stripChars
  have hsym : ∀ (m : List Char),
      List.Chain' (fun a b => ¬(a.isAlphanum = true ∧ b.isAlphanum = true)) m →
      List.Chain' (fun a b => ¬(a.isAlphanum = true ∧ b.isAlphanum = true)) m.reverse := by
    intro m hm
    rw [List.chain'_reverse]
    exact hm.imp fun a b hab hcon => hab ⟨hcon.2, hcon.1⟩
  have h1 := (h.suffix (List.dropWhile_suffix pyIsSpace))
  have h2 := hsym _ h1
  have h3 := h2.suffix (List.dropWhile_suffix pyIsSpace)
  exact hsym _ h3

theorem normalizeQuery_noRun (q : String) (h : noAlnumRun2 q.data) :
    noAlnumRun2 (normalizeQuery q).data := by
  show noAlnumRun2 (stripChars (joinSpace (splitWsAux q.data [])))
  exact stripChars_chain _ (split_join_chain q.data [] (by simpa using h))

theorem tokenize_eq_nil_of_noRun (s : String) (h : noAlnumRun2 s.data) :
    tokenize s = [] := by
  rw [tokenize]
  exact (tokenizeAux_eq_nil _ (noAlnumRun2_map_toLower _ h)).1

/-- C10: a non-empty (after whitespace normalization) query whose text has
no run of two or more adjacent alphanumeric characters is rejected by
`recall_knowledge` with the "alphanumeric term" invalid-input error before
any cache or filesystem access and before any scoring: tokenization keeps
only tokens of length above 1, so such a query tokenizes to the empty list. -/
theorem no_alnum_query_rejected (relOf : String → String) (q : String)
    (limit : ℤ) (fs : List FsFile) (cache : RecallCache)
    (hne : normalizeQuery q ≠ "") (h : noAlnumRun2 q.data) :
    recall_knowledge relOf q limit fs cache = (.error .noAlnumToken, false, cache) := by
  have ht : tokenize (normalizeQuery q) = [] :=
    tokenize_eq_nil_of_noRun _ (normalizeQuery_noRun q h)
  rw [recall_knowledge]
  rw [if_neg hne]
  simp [ht]

/-- C10 witness: the concrete query `"a ?!"` (single letter, punctuation)
is rejected with the alphanumeric-term error and no cache access. -/
theorem no_alnum_query_rejected_witness :
    recall_knowledge id "a ?!" 5 [] none = (.error .noAlnumToken, false, none) :=
  no_alnum_query_rejected id "a ?!" 5 [] none (by decide)
    (by
      show List.Chain' _ ['a', ' ', '?', '!']
      refine List.chain'_cons.mpr ⟨by decide, List.chain'_cons.mpr ⟨by decide,
        List.chain'_cons.mpr ⟨by decide, List.chain'_singleton _⟩⟩⟩)

/-! ## Recall cache signatures -/

theorem dictUpd_append {β : Type} (m : List (String × β)) (k : String) (v : β)
    (h : k ∉ m.map Prod.fst) : dictUpd m k v = m ++ [(k, v)] := by
  induction m with
  | nil => rfl
  | cons p rest ih =>
    obtain ⟨k', v'⟩ := p
    rw [List.map_cons, List.mem_cons] at h
    push_neg at h
    rw [dictUpd, if_neg (fun he => h.1 he.symm)]
    rw [ih h.2]
    rfl

theorem dictUpd_append_self {β : Type} (m : List (String × β)) (k : String) (v : β)
    (h : k ∉ m.map Prod.fst) : dictUpd (m ++ [(k, v)]) k v = m ++ [(k, v)] := by
  induction m with
  | nil => simp [dictUpd]
  | cons p rest ih =>
    obtain ⟨k', v'⟩ := p
    rw [List.map_cons, List.mem_cons] at h
    push_neg at h
    rw [List.cons_append, dictUpd, if_neg (fun he => h.1 he.symm), ih h.2]

theorem foldl_dictUpd_fresh {β : Type} (items : List (String × β)) :
    ∀ acc : List (String × β), ((acc ++ items).map Prod.fst).Nodup →
      items.foldl (fun m p => dictUpd m p.1 p.2) acc = acc ++ items := by
  induction items with
  | nil => intro acc _; simp
  | cons p rest ih =>
    intro acc hnd
    have hk : p.1 ∉ acc.map Prod.fst := by
      intro hmem
      rw [List.map_append, List.nodup_append] at hnd
      exact hnd.2.2 hmem (by simp)
    rw [List.foldl_cons, dictUpd_append acc p.1 p.2 hk]
    rw [ih (acc ++ [p]) (by simpa using hnd)]
    simp

theorem collect_signature_eq (fs : List FsFile)
    (hnd : (fs.map FsFile.path).Nodup) :
    collect_signature fs = fs.map (fun f => (f.path, f.mtime)) := by
  unfold collect_signature
  rw [← List.foldl_map (fun f : FsFile => (f.path, f.mtime))
    (fun m p => dictUpd m p.1 p.2)]
  rw [foldl_dictUpd_fresh _ [] (by simpa [List.map_map, Function.comp] using hnd)]
  simp

theorem foldl_dictUpd_block (val : String → ℚ) (p : String) :
    ∀ (block : List IndexedSnippet) (acc : List (String × ℚ)),
      (∀ s ∈ block, s.path = p) → p ∉ acc.map Prod.fst →
      block.foldl (fun sig s => dictUpd sig s.path (val s.path)) (acc ++ [(p, val p)]) =
        acc ++ [(p, val p)] := by
  intro block
  induction block with
  | nil => intro acc _ _; rfl
  | cons s rest ih =>
    intro acc hall hk
    rw [List.foldl_cons]
    rw [hall s (by simp)]
    rw [dictUpd_append_self acc p (val p) hk]
    exact ih acc (fun t ht => hall t (by simp [ht])) hk

theorem foldl_dictUpd_grouped (val : String → ℚ)
    (blockOf : FsFile → List IndexedSnippet)
    (hpath : ∀ f s, s ∈ blockOf f → s.path = f.path) :
    ∀ (fs' : List FsFile) (acc : List (String × ℚ)),
      ((acc.map Prod.fst ++ fs'.map FsFile.path)).Nodup →
      (∀ f ∈ fs', blockOf f ≠ []) →
      (fs'.flatMap blockOf).foldl (fun sig s => dictUpd sig s.path (val s.path)) acc =
        acc ++ fs'.map (fun f => (f.path, val f.path)) := by
  intro fs'
  induction fs' with
  | nil => intro acc _ _; simp
  | cons f rest ih =>
    intro acc hnd hne
    rw [List.flatMap_cons, List.foldl_append]
    have hk : f.path ∉ acc.map Prod.fst := by
      intro hmem
      rw [List.nodup_append] at hnd
      exact hnd.2.2 hmem (by simp)
    obtain ⟨s0, bs, hb⟩ := List.exists_cons_of_ne_nil (hne f (by simp))
    have hfold1 : (blockOf f).foldl
        (fun sig s => dictUpd sig s.path (val s.path)) acc =
        acc ++ [(f.path, val f.path)] := by
      rw [hb, List.foldl_cons]
      rw [hpath f s0 (by rw [hb]; simp)]
      rw [dictUpd_append acc f.path (val f.path) hk]
      exact foldl_dictUpd_block val f.path bs acc
        (fun t ht => hpath f t (by rw [hb]; simp [ht])) hk
    rw [hfold1]
    rw [ih (acc ++ [(f.path, val f.path)]) (by simpa using hnd)
      (fun g hg => hne g (by simp [hg]))]
    simp

theorem statMtime_eq (fs : List FsFile) (hnd : (fs.map FsFile.path).Nodup) :
    ∀ f ∈ fs, statMtime fs f.path = f.mtime := by
  induction fs with
  | nil => intro f hf; cases hf
  | cons g rest ih =>
    intro f hf
    rw [List.map_cons, List.nodup_cons] at hnd
    rcases List.mem_cons.mp hf with rfl | hf'
    · unfold statMtime
      rw [List.find?_cons_of_pos _ (by simp)]
    · have hne : (g.path = f.path) = False := by
        simp only [eq_iff_iff, iff_false]
        intro he
        exact hnd.1 (he ▸ List.mem_map_of_mem FsFile.path hf')
      unfold statMtime
      rw [List.find?_cons_of_neg _ (by simp [hne])]
      exact ih hnd.2 f hf'

theorem build_signature_eq (relOf : String → String) (fs : List FsFile)
    (hnd : (fs.map FsFile.path).Nodup)
    (hne : ∀ f ∈ fs, (extract_paragraphs f.text).2 ≠ []) :
    build_signature fs (build_index relOf fs) = fs.map (fun f => (f.path, f.mtime)) := by
  unfold build_signature build_index
  rw [foldl_dictUpd_grouped (statMtime fs)
    (fun f =>
      (extract_paragraphs f.text).2.map
        (fun b => ⟨f.path, relOf f.path,
          (if (extract_paragraphs f.text).1 = "" then fallbackTitle f.path
            else (extract_paragraphs f.text).1), b.sec, b.line, b.text⟩))
    (by
      intro f s hs
      obtain ⟨b, _, hb⟩ := List.mem_map.mp hs
      rw [← hb])
    fs [] (by simpa using hnd)
    (by
      intro f hf
      simp only [ne_eq, List.map_eq_nil_iff]
      exact hne f hf)]
  rw [List.nil_append]
  exact List.map_congr_left (fun f hf => by rw [statMtime_eq fs hnd f hf])

theorem lookup_self_of_nodup {β : Type} [BEq β] (l : List (String × β))
    (hnd : (l.map Prod.fst).Nodup) : ∀ p ∈ l, l.lookup p.1 = some p.2 := by
  induction l with
  | nil => intro p hp; cases hp
  | cons q rest ih =>
    intro p hp
    obtain ⟨k, v⟩ := q
    rw [List.map_cons, List.nodup_cons] at hnd
    rcases List.mem_cons.mp hp with rfl | hp'
    · simp [List.lookup]
    · have hkp : (p.1 == k) = false := by
        rw [beq_eq_false_iff_ne]
        intro he
        have hm : p.1 ∈ rest.map Prod.fst := List.mem_map_of_mem Prod.fst hp'
        rw [he] at hm
        exact hnd.1 hm
      rw [List.lookup, hkp]
      exact ih hnd.2 p hp'

theorem sigEq_refl (l : List (String × ℚ)) (hnd : (l.map Prod.fst).Nodup) :
    sigEq l l = true := by
  unfold sigEq
  rw [Bool.and_eq_true, List.all_eq_true]
  constructor <;>
  · intro p hp
    rw [lookup_self_of_nodup l hnd p hp]
    simp

/-- C4 counterexample: a root holding one unchanged eligible file whose text
yields no paragraphs.  The cache entry just built from this very tree has an
empty signature (signatures only record snippet paths), the re-stated
signature lists the file, so the signatures differ and `_load_index`
rebuilds from disk — the cached tuple is **not** reused. -/
theorem recall_cache_empty_file_rebuilds :
    (load_index id
      (some (build_index id [⟨"docs/empty.md", 7, ""⟩],
        build_signature [⟨"docs/empty.md", 7, ""⟩]
          (build_index id [⟨"docs/empty.md", 7, ""⟩])))
      [⟨"docs/empty.md", 7, ""⟩]).2.2 = true := by
  decide

/-- C4 (amended): if additionally every eligible file contributed at least
one snippet when the cache was built, then on an unchanged tree the
recomputed signature equals the cached one and the cached tuple is served
without a rebuild; and whenever the recomputed signature differs from the
cached one (files added, removed or touched — or a file with no
paragraphs, which is absent from the stored signature), the full snippet
set is rebuilt from disk before scoring. -/
theorem recall_cache_signature (relOf : String → String) (fs : List FsFile)
    (hnd : (fs.map FsFile.path).Nodup)
    (hne : ∀ f ∈ fs, (extract_paragraphs f.text).2 ≠ []) :
    (sigEq (collect_signature fs)
        (build_signature fs (build_index relOf fs)) = true ∧
      load_index relOf
          (some (build_index relOf fs, build_signature fs (build_index relOf fs))) fs =
        (build_index relOf fs,
          some (build_index relOf fs, build_signature fs (build_index relOf fs)),
          false)) ∧
    (∀ (snips : List IndexedSnippet) (sig : List (String × ℚ)),
      sigEq (collect_signature fs) sig = false →
      load_index relOf (some (snips, sig)) fs =
        (build_index relOf fs,
          some (build_index relOf fs, build_signature fs (build_index relOf fs)),
          true)) := by
  have hb := build_signature_eq relOf fs hnd hne
  have hc := collect_signature_eq fs hnd
  have hmatch : sigEq (collect_signature fs)
      (build_signature fs (build_index relOf fs)) = true := by
    rw [hb, hc]
    exact sigEq_refl _ (by simpa [List.map_map, Function.comp] using hnd)
  refine ⟨⟨hmatch, ?_⟩, ?_⟩
  · rw [load_index, if_pos hmatch]
  · intro snips sig hdiff
    rw [load_index, if_neg (by rw [hdiff]; simp)]

/-- C4 witness: a concrete one-file tree with a non-empty document is
served from the cache without rebuild, and a mismatching signature forces
a rebuild. -/
theorem recall_cache_signature_witness :
    (load_index id
      (some (build_index id [⟨"docs/a.md", 3, "hello world"⟩],
        build_signature [⟨"docs/a.md", 3, "hello world"⟩]
          (build_index id [⟨"docs/a.md", 3, "hello world"⟩])))
      [⟨"docs/a.md", 3, "hello world"⟩]).2.2 = false ∧
    (load_index id (some ([], [])) [⟨"docs/a.md", 3, "hello world"⟩]).2.2 = true := by
  have h := recall_cache_signature id [⟨"docs/a.md", 3, "hello world"⟩]
    (by decide) (by decide)
  refine ⟨?_, ?_⟩
  · rw [h.1.2]
  · rw [h.2 [] [] (by decide)]

/-! ## Chunk replacement -/

theorem insert_chunks_from_spec (sid : Nat) :
    ∀ (ps : List Paragraph) (idx count : Nat) (db : Db),
      insert_chunks_from sid ps idx count db =
        (count + ((List.enumFrom idx ps).filter
            (fun ip => pyStrip ip.2.text != "")).length,
          { db with
            chunks := db.chunks ++ claimChunks sid
              ((List.enumFrom idx ps).filter (fun ip => pyStrip ip.2.text != ""))
              db.nextChunkId,
            fts := db.fts ++ claimFts
              ((List.enumFrom idx ps).filter (fun ip => pyStrip ip.2.text != ""))
              db.nextChunkId,
            nextChunkId := db.nextChunkId + ((List.enumFrom idx ps).filter
              (fun ip => pyStrip ip.2.text != "")).length }) := by
  intro ps
  induction ps with
  | nil =>
    intro idx count db
    simp [insert_chunks_from, List.enumFrom, claimChunks, claimFts]
  | cons b rest ih =>
    intro idx count db
    rw [List.enumFrom, insert_chunks_from]
    by_cases hb : pyStrip b.text = ""
    · rw [if_pos hb]
      rw [List.filter_cons_of_neg (by simp [hb])]
      exact ih (idx + 1) count db
    · rw [if_neg hb]
      rw [List.filter_cons_of_pos (by simp [hb])]
      simp only [dbInsertChunk, dbInsertFts]
      rw [ih (idx + 1) (count + 1)]
      simp [Prod.mk.injEq, Db.mk.injEq, claimChunks, claimFts, List.append_assoc]
      omega

/-- C6 counterexample: replacing with the two-paragraph list
`[{text: "", line: 1}, {text: "a", line: 2}]` inserts exactly one chunk,
whose `order_index` is 1 (its position in the input list), not the 0-based
position among inserted chunks (which would give the single value 0). -/
theorem replace_chunks_order_counterexample :
    ¬ (((replace_chunks 5 [⟨"", 1, none⟩, ⟨"a", 2, none⟩]
          ⟨[], [], [], 1, 1⟩).2.chunks.map ChunkRow.order_index) =
        List.range (replace_chunks 5 [⟨"", 1, none⟩, ⟨"a", 2, none⟩]
          ⟨[], [], [], 1, 1⟩).1) := by
  decide

/-- C6 (amended): `replace_chunks(source_id, paragraphs)` deletes every
existing chunk of that source together with their full-text rows, leaves
every other source's rows untouched, inserts one chunk plus one full-text
row per paragraph whose stripped text is non-empty, in input order with
consecutive fresh rowids, and records each inserted chunk's `order_index`
as the paragraph's 0-based position in the **input** list (positions of
empty-text paragraphs are consumed, not re-packed; the returned count is
the number of inserted chunks). -/
theorem replace_chunks_spec (sid : Nat) (ps : List Paragraph) (db : Db) :
    replace_chunks sid ps db =
      ((ps.enum.filter (fun ip => pyStrip ip.2.text != "")).length,
        { db with
          chunks := db.chunks.filter (fun c => c.source_id ≠ sid) ++
            claimChunks sid (ps.enum.filter (fun ip => pyStrip ip.2.text != ""))
              db.nextChunkId,
          fts := db.fts.filter (fun r =>
              r.rowid ∉ (db.chunks.filter
                (fun c => c.source_id = sid)).map ChunkRow.id) ++
            claimFts (ps.enum.filter (fun ip => pyStrip ip.2.text != ""))
              db.nextChunkId,
          nextChunkId := db.nextChunkId +
            (ps.enum.filter (fun ip => pyStrip ip.2.text != "")).length }) := by
  rw [replace_chunks, insert_chunks, insert_chunks_from_spec, remove_source_chunks]
  simp [List.enum]

/-! ## Incremental indexer: auxiliary lemmas -/

theorem lookup_mem {β : Type} (l : List (String × β)) (a : String) (b : β)
    (h : List.lookup a l = some b) : (a, b) ∈ l := by
  induction l with
  | nil => cases h
  | cons p rest ih =>
    obtain ⟨k, v⟩ := p
    rw [List.lookup_cons] at h
    by_cases he : a = k
    · rw [show (a == k) = true from by simpa using he] at h
      simp only [Option.some.injEq] at h
      simp [he, h]
    · rw [show (a == k) = false from by simpa using he] at h
      simp only at h
      exact List.mem_cons_of_mem _ (ih h)

theorem lookup_none_iff {β : Type} (l : List (String × β)) (a : String) :
    List.lookup a l = none ↔ a ∉ l.map Prod.fst := by
  induction l with
  | nil => simp
  | cons p rest ih =>
    obtain ⟨k, v⟩ := p
    rw [List.lookup_cons]
    by_cases he : a = k
    · rw [show (a == k) = true from by simpa using he]
      simp [he]
    · rw [show (a == k) = false from by simpa using he]
      simp only
      simp [ih, he]

theorem lookup_dictUpd {β : Type} (m : List (String × β)) (k : String) (v : β)
    (a : String) :
    List.lookup a (dictUpd m k v) = if a = k then some v else List.lookup a m := by
  induction m with
  | nil =>
    by_cases he : a = k
    · simp [dictUpd, List.lookup_cons, show (a == k) = true from by simpa using he, he]
    · simp [dictUpd, List.lookup_cons, show (a == k) = false from by simpa using he, he]
  | cons p rest ih =>
    obtain ⟨k', v'⟩ := p
    by_cases hk : k' = k
    · subst hk
      by_cases he : a = k'
      · simp [dictUpd, List.lookup_cons,
          show (a == k') = true from by simpa using he, he]
      · simp [dictUpd, List.lookup_cons,
          show (a == k') = false from by simpa using he, he]
    · by_cases he : a = k'
      · have hak : ¬ a = k := fun hh => hk (by rw [← he, hh])
        simp [dictUpd, hk, List.lookup_cons,
          show (a == k') = true from by simpa using he, hak]
      · simp only [dictUpd, if_neg hk, List.lookup_cons,
          show (a == k') = false from by simpa using he]
        exact ih

theorem buildExisting_eq (rows : List SourceRow)
    (hnd : (rows.map SourceRow.path).Nodup) :
    buildExisting rows =
      rows.map (fun r => (r.path, (⟨r.id, r.fingerprint⟩ : SrcInfo))) := by
  unfold buildExisting
  rw [← List.foldl_map (fun r : SourceRow => (r.path, (⟨r.id, r.fingerprint⟩ : SrcInfo)))
    (fun m p => dictUpd m p.1 p.2)]
  rw [foldl_dictUpd_fresh _ [] (by simpa [List.map_map, Function.comp] using hnd)]
  simp

theorem dbUpdateSource_map_path (sid : Nat) (t fpr ts : String) (db : Db) :
    (dbUpdateSource sid t fpr ts db).sources.map SourceRow.path =
      db.sources.map SourceRow.path := by
  unfold dbUpdateSource
  rw [List.map_map]
  apply List.map_congr_left
  intro r _
  by_cases h : r.id = sid <;> simp [h]

theorem dbUpdateSource_map_id (sid : Nat) (t fpr ts : String) (db : Db) :
    (dbUpdateSource sid t fpr ts db).sources.map SourceRow.id =
      db.sources.map SourceRow.id := by
  unfold dbUpdateSource
  rw [List.map_map]
  apply List.map_congr_left
  intro r _
  by_cases h : r.id = sid <;> simp [h]

theorem insert_chunks_sources (sid : Nat) (ps : List Paragraph) (db : Db) :
    (insert_chunks sid ps db).2.sources = db.sources ∧
    (insert_chunks sid ps db).2.nextSourceId = db.nextSourceId := by
  rw [insert_chunks, insert_chunks_from_spec]
  exact ⟨rfl, rfl⟩

theorem remove_source_chunks_sources (sid : Nat) (db : Db) :
    (remove_source_chunks sid db).sources = db.sources ∧
    (remove_source_chunks sid db).nextSourceId = db.nextSourceId := by
  rw [remove_source_chunks]
  exact ⟨rfl, rfl⟩

theorem inj_id_of_nodup (l : List SourceRow)
    (hid : (l.map SourceRow.id).Nodup) :
    ∀ r1 ∈ l, ∀ r2 ∈ l, r1.id = r2.id → r1 = r2 :=
  fun _ h1 _ h2 he => List.inj_on_of_nodup_map hid h1 h2 he

theorem inj_path_of_nodup (l : List SourceRow)
    (hp : (l.map SourceRow.path).Nodup) :
    ∀ r1 ∈ l, ∀ r2 ∈ l, r1.path = r2.path → r1 = r2 :=
  fun _ h1 _ h2 he => List.inj_on_of_nodup_map hp h1 h2 he

theorem dbUpdateSource_mem (sid : Nat) (t fpr ts : String) (db : Db)
    (r : SourceRow) (hr : r ∈ db.sources) :
    (if r.id = sid then { r with title := t, fingerprint := fpr, last_indexed_ts := ts }
      else r) ∈ (dbUpdateSource sid t fpr ts db).sources := by
  unfold dbUpdateSource
  exact List.mem_map_of_mem _ hr

theorem dbUpdateSource_mem_of_ne (sid : Nat) (t fpr ts : String) (db : Db)
    (r : SourceRow) (hr : r ∈ db.sources) (hne : r.id ≠ sid) :
    r ∈ (dbUpdateSource sid t fpr ts db).sources := by
  have h := dbUpdateSource_mem sid t fpr ts db r hr
  rwa [if_neg hne] at h

theorem dbUpdateSource_mem_src (sid : Nat) (t fpr ts : String) (db : Db)
    (r' : SourceRow) (h : r' ∈ (dbUpdateSource sid t fpr ts db).sources) :
    ∃ r ∈ db.sources, r'.id = r.id ∧ r'.path = r.path := by
  unfold dbUpdateSource at h
  obtain ⟨r0, hr0, he⟩ := List.mem_map.mp h
  refine ⟨r0, hr0, ?_, ?_⟩ <;>
  · rw [← he]
    by_cases hh : r0.id = sid <;> simp [hh]

/-- Behavior of one `index_knowledge` file iteration: invariants are
preserved, the file's row carries the fresh fingerprint, rows of other
paths survive untouched, and dict entries for other files keep matching
rows. -/
theorem fileStep_post (fp : String → String) (now : String) (force : Bool)
    (st : LoopSt) (f : SrcFile)
    (hpath : (st.db.sources.map SourceRow.path).Nodup)
    (hid : (st.db.sources.map SourceRow.id).Nodup)
    (hbound : ∀ r ∈ st.db.sources, r.id < st.db.nextSourceId)
    (hmatch : ∀ e ∈ st.existing, ∃ r ∈ st.db.sources, r.id = e.2.id ∧ r.path = e.1)
    (hkeys : ∀ r ∈ st.db.sources, r.path ∈ st.existing.map Prod.fst)
    (hself : ∀ info, List.lookup f.rel st.existing = some info →
      ∃ r ∈ st.db.sources, r.id = info.id ∧ r.path = f.rel ∧
        r.fingerprint = info.fingerprint) :
    ((fileStep fp now force st f).db.sources.map SourceRow.path).Nodup ∧
    ((fileStep fp now force st f).db.sources.map SourceRow.id).Nodup ∧
    (∀ r ∈ (fileStep fp now force st f).db.sources,
      r.id < (fileStep fp now force st f).db.nextSourceId) ∧
    (∀ e ∈ (fileStep fp now force st f).existing,
      ∃ r ∈ (fileStep fp now force st f).db.sources, r.id = e.2.id ∧ r.path = e.1) ∧
    (∀ r ∈ (fileStep fp now force st f).db.sources,
      r.path ∈ (fileStep fp now force st f).existing.map Prod.fst) ∧
    (∃ r ∈ (fileStep fp now force st f).db.sources,
      r.path = f.rel ∧ r.fingerprint = fp f.text) ∧
    (fileStep fp now force st f).seen = f.rel :: st.seen ∧
    (∀ r ∈ st.db.sources, r.path ≠ f.rel →
      r ∈ (fileStep fp now force st f).db.sources) ∧
    (∀ g : SrcFile, g.rel ≠ f.rel →
      (∀ info, List.lookup g.rel st.existing = some info →
        ∃ r ∈ st.db.sources, r.id = info.id ∧ r.path = g.rel ∧
          r.fingerprint = info.fingerprint) →
      (∀ info, List.lookup g.rel (fileStep fp now force st f).existing = some info →
        ∃ r ∈ (fileStep fp now force st f).db.sources, r.id = info.id ∧
          r.path = g.rel ∧ r.fingerprint = info.fingerprint)) := by
  cases hl : List.lookup f.rel st.existing with
  | some info =>
    simp only [fileStep, hl]
    by_cases hskip : force = false ∧ info.fingerprint = fp f.text
    · rw [if_pos hskip]
      obtain ⟨rs, hrs, hrid, hrpath, hrfpr⟩ := hself info hl
      refine ⟨hpath, hid, hbound, hmatch, hkeys,
        ⟨rs, hrs, hrpath, by rw [hrfpr, hskip.2]⟩, rfl,
        fun r hr _ => hr, fun g _ hg info' h' => hg info' h'⟩
    · rw [if_neg hskip]
      obtain ⟨rs, hrs, hrid, hrpath, hrfpr⟩ := hself info hl
      have hrms : (remove_source_chunks info.id st.db).sources = st.db.sources :=
        (remove_source_chunks_sources _ _).1
      have hsrc : (insert_chunks info.id (extract_paragraphs f.text).2
            (dbUpdateSource info.id
              (if (extract_paragraphs f.text).1 = "" then fallbackTitle f.path
                else (extract_paragraphs f.text).1)
              (fp f.text) now
              (remove_source_chunks info.id st.db))).2.sources =
          (dbUpdateSource info.id
              (if (extract_paragraphs f.text).1 = "" then fallbackTitle f.path
                else (extract_paragraphs f.text).1)
              (fp f.text) now
              (remove_source_chunks info.id st.db)).sources :=
        (insert_chunks_sources _ _ _).1
      have hnext : (insert_chunks info.id (extract_paragraphs f.text).2
            (dbUpdateSource info.id
              (if (extract_paragraphs f.text).1 = "" then fallbackTitle f.path
                else (extract_paragraphs f.text).1)
              (fp f.text) now
              (remove_source_chunks info.id st.db))).2.nextSourceId =
          st.db.nextSourceId := by
        rw [(insert_chunks_sources _ _ _).2]
        rfl
      rw [hsrc, hnext]
      refine ⟨?_, ?_, ?_, ?_, ?_, ?_, rfl, ?_, ?_⟩
      · rw [dbUpdateSource_map_path, hrms]
        exact hpath
      · rw [dbUpdateSource_map_id, hrms]
        exact hid
      · intro r hr
        obtain ⟨r0, hr0, hideq, _⟩ := dbUpdateSource_mem_src _ _ _ _ _ r hr
        rw [hrms] at hr0
        rw [hideq]
        exact hbound r0 hr0
      · intro e he
        obtain ⟨r0, hr0, hr0id, hr0path⟩ := hmatch e he
        refine ⟨_, dbUpdateSource_mem info.id _ (fp f.text) now _ r0
          (by rw [hrms]; exact hr0), ?_, ?_⟩
        · by_cases h : r0.id = info.id <;> simpa [h] using hr0id
        · by_cases h : r0.id = info.id <;> simpa [h] using hr0path
      · intro r hr
        obtain ⟨r0, hr0, _, hpatheq⟩ := dbUpdateSource_mem_src _ _ _ _ _ r hr
        rw [hrms] at hr0
        rw [hpatheq]
        exact hkeys r0 hr0
      · refine ⟨_, dbUpdateSource_mem info.id _ (fp f.text) now _ rs
          (by rw [hrms]; exact hrs), ?_, ?_⟩
        · rw [if_pos hrid]
          exact hrpath
        · rw [if_pos hrid]
      · intro r hr hne
        have hidne : r.id ≠ info.id := by
          intro he
          have heq : r = rs :=
            inj_id_of_nodup st.db.sources hid r hr rs hrs (he.trans hrid.symm)
          exact hne (heq ▸ hrpath)
        exact dbUpdateSource_mem_of_ne _ _ _ _ _ r (by rw [hrms]; exact hr) hidne
      · intro g hgne hg info' h'
        obtain ⟨rg, hrg, hrgid, hrgpath, hrgfpr⟩ := hg info' h'
        have hidne : rg.id ≠ info.id := by
          intro he
          have heq : rg = rs :=
            inj_id_of_nodup st.db.sources hid rg hrg rs hrs (he.trans hrid.symm)
          apply hgne
          rw [← hrgpath, heq, hrpath]
        exact ⟨rg, dbUpdateSource_mem_of_ne _ _ _ _ _ rg
          (by rw [hrms]; exact hrg) hidne, hrgid, hrgpath, hrgfpr⟩
  | none =>
    simp only [fileStep, hl]
    have hfreshkey : f.rel ∉ st.existing.map Prod.fst := (lookup_none_iff _ _).mp hl
    have hfreshpath : f.rel ∉ st.db.sources.map SourceRow.path := by
      intro hmem
      obtain ⟨r0, hr0, hr0e⟩ := List.mem_map.mp hmem
      exact hfreshkey (hr0e ▸ hkeys r0 hr0)
    have hsrc : ∀ ps : List Paragraph, ∀ db : Db,
        (insert_chunks (dbInsertSource f.rel
            (if (extract_paragraphs f.text).1 = "" then fallbackTitle f.path
              else (extract_paragraphs f.text).1) (fp f.text) now db).1 ps
          (dbInsertSource f.rel
            (if (extract_paragraphs f.text).1 = "" then fallbackTitle f.path
              else (extract_paragraphs f.text).1) (fp f.text) now db).2).2.sources =
        db.sources ++ [⟨db.nextSourceId, f.rel,
          (if (extract_paragraphs f.text).1 = "" then fallbackTitle f.path
            else (extract_paragraphs f.text).1), fp f.text, now⟩] := by
      intro ps db
      rw [(insert_chunks_sources _ _ _).1]
      rfl
    have hnext : ∀ ps : List Paragraph, ∀ db : Db,
        (insert_chunks (dbInsertSource f.rel
            (if (extract_paragraphs f.text).1 = "" then fallbackTitle f.path
              else (extract_paragraphs f.text).1) (fp f.text) now db).1 ps
          (dbInsertSource f.rel
            (if (extract_paragraphs f.text).1 = "" then fallbackTitle f.path
              else (extract_paragraphs f.text).1) (fp f.text) now db).2).2.nextSourceId =
        db.nextSourceId + 1 := by
      intro ps db
      rw [(insert_chunks_sources _ _ _).2]
      rfl
    rw [hsrc, hnext]
    refine ⟨?_, ?_, ?_, ?_, ?_, ?_, trivial, ?_, ?_⟩
    · rw [List.map_append, List.nodup_append]
      refine ⟨hpath, by simp, ?_⟩
      intro x hx
      simp only [List.map_cons, List.map_nil, List.mem_singleton]
      intro he
      exact hfreshpath (he ▸ hx)
    · rw [List.map_append, List.nodup_append]
      refine ⟨hid, by simp, ?_⟩
      intro x hx
      simp only [List.map_cons, List.map_nil, List.mem_singleton]
      intro he
      obtain ⟨r0, hr0, hr0e⟩ := List.mem_map.mp hx
      have := hbound r0 hr0
      omega
    · intro r hr
      rcases List.mem_append.mp hr with hr' | hr'
      · have := hbound r hr'
        omega
      · rw [List.mem_singleton] at hr'
        rw [hr']
        show st.db.nextSourceId < st.db.nextSourceId + 1
        omega
    · intro e he
      rw [dictUpd_append st.existing f.rel _ hfreshkey] at he
      rcases List.mem_append.mp he with he' | he'
      · obtain ⟨r0, hr0, hr0id, hr0path⟩ := hmatch e he'
        exact ⟨r0, List.mem_append_left _ hr0, hr0id, hr0path⟩
      · rw [List.mem_singleton] at he'
        rw [he']
        exact ⟨_, List.mem_append_right _ (List.mem_singleton_self _), rfl, rfl⟩
    · intro r hr
      rw [dictUpd_append st.existing f.rel _ hfreshkey, List.map_append]
      rcases List.mem_append.mp hr with hr' | hr'
      · exact List.mem_append_left _ (hkeys r hr')
      · rw [List.mem_singleton] at hr'
        rw [hr']
        simp
    · exact ⟨_, List.mem_append_right _ (List.mem_singleton_self _), rfl, rfl⟩
    · intro r hr _
      exact List.mem_append_left _ hr
    · intro g hgne hg info' h'
      rw [lookup_dictUpd st.existing f.rel _ g.rel, if_neg hgne] at h'
      obtain ⟨rg, hrg, hrgid, hrgpath, hrgfpr⟩ := hg info' h'
      exact ⟨rg, List.mem_append_left _ hrg, hrgid, hrgpath, hrgfpr⟩

/-- Invariants and outcomes of the whole per-file loop. -/
theorem fileLoop_post (fp : String → String) (now : String) (force : Bool) :
    ∀ (fs : List SrcFile) (st : LoopSt),
      (st.db.sources.map SourceRow.path).Nodup →
      (st.db.sources.map SourceRow.id).Nodup →
      (∀ r ∈ st.db.sources, r.id < st.db.nextSourceId) →
      (∀ e ∈ st.existing, ∃ r ∈ st.db.sources, r.id = e.2.id ∧ r.path = e.1) →
      (∀ r ∈ st.db.sources, r.path ∈ st.existing.map Prod.fst) →
      (fs.map SrcFile.rel).Nodup →
      (∀ f ∈ fs, ∀ info, List.lookup f.rel st.existing = some info →
        ∃ r ∈ st.db.sources, r.id = info.id ∧ r.path = f.rel ∧
          r.fingerprint = info.fingerprint) →
      ((fileLoop fp now force fs st).db.sources.map SourceRow.path).Nodup ∧
      ((fileLoop fp now force fs st).db.sources.map SourceRow.id).Nodup ∧
      (∀ e ∈ (fileLoop fp now force fs st).existing,
        ∃ r ∈ (fileLoop fp now force fs st).db.sources,
          r.id = e.2.id ∧ r.path = e.1) ∧
      (∀ r ∈ (fileLoop fp now force fs st).db.sources,
        r.path ∈ (fileLoop fp now force fs st).existing.map Prod.fst) ∧
      (∀ f ∈ fs, ∃ r ∈ (fileLoop fp now force fs st).db.sources,
        r.path = f.rel ∧ r.fingerprint = fp f.text) ∧
      (fileLoop fp now force fs st).seen = (fs.map SrcFile.rel).reverse ++ st.seen ∧
      (∀ r ∈ st.db.sources, r.path ∉ fs.map SrcFile.rel →
        r ∈ (fileLoop fp now force fs st).db.sources) := by
  intro fs
  induction fs with
  | nil =>
    intro st hpath hid hbound hmatch hkeys _ _
    rw [fileLoop]
    exact ⟨hpath, hid, hmatch, hkeys, by simp, by simp, fun r hr _ => hr⟩
  | cons f rest ih =>
    intro st hpath hid hbound hmatch hkeys hnd hself
    rw [fileLoop]
    rw [List.map_cons, List.nodup_cons] at hnd
    obtain ⟨s1, s2, s3, s4, s5, s6, s7, s8, s9⟩ :=
      fileStep_post fp now force st f hpath hid hbound hmatch hkeys
        (hself f (by simp))
    have hself1 : ∀ g ∈ rest, ∀ info,
        List.lookup g.rel (fileStep fp now force st f).existing = some info →
        ∃ r ∈ (fileStep fp now force st f).db.sources,
          r.id = info.id ∧ r.path = g.rel ∧ r.fingerprint = info.fingerprint := by
      intro g hg
      have hgne : g.rel ≠ f.rel := by
        intro he
        exact hnd.1 (he ▸ List.mem_map_of_mem SrcFile.rel hg)
      exact s9 g hgne (fun info h => hself g (by simp [hg]) info h)
    obtain ⟨p1, p2, p4, p5, p6, p7, p9⟩ :=
      ih (fileStep fp now force st f) s1 s2 s3 s4 s5 hnd.2 hself1
    refine ⟨p1, p2, p4, p5, ?_, ?_, ?_⟩
    · intro g hg
      rcases List.mem_cons.mp hg with rfl | hg'
      · obtain ⟨rf, hrf, hrfpath, hrffpr⟩ := s6
        have hnotin : rf.path ∉ rest.map SrcFile.rel := by
          rw [hrfpath]
          exact hnd.1
        exact ⟨rf, p9 rf hrf hnotin, hrfpath, hrffpr⟩
      · exact p6 g hg'
    · rw [p7, s7]
      simp [List.append_assoc]
    · intro r hr hnotin
      rw [List.map_cons, List.mem_cons] at hnotin
      push_neg at hnotin
      exact p9 r (s8 r hr hnotin.1) hnotin.2

/-- The deletion pass is a no-op when every dict entry's path was seen. -/
theorem deleteLoop_noop :
    ∀ (entries : List (String × SrcInfo)) (seen : List String) (db : Db)
      (stats : Stats), (∀ e ∈ entries, e.1 ∈ seen) →
      deleteLoop entries seen db stats = (db, stats) := by
  intro entries
  induction entries with
  | nil => intro seen db stats _; rfl
  | cons e rest ih =>
    intro seen db stats h
    rw [deleteLoop, if_pos (h e (by simp))]
    exact ih seen db stats (fun e' he' => h e' (by simp [he']))

/-- Closed form of the deletion pass on the `kb_sources` table: a row
survives exactly when no unseen entry carries its id. -/
theorem deleteLoop_sources :
    ∀ (entries : List (String × SrcInfo)) (seen : List String) (db : Db)
      (stats : Stats),
      (deleteLoop entries seen db stats).1.sources =
        db.sources.filter (fun row =>
          !(entries.any (fun e => !(decide (e.1 ∈ seen)) && e.2.id == row.id))) := by
  intro entries
  induction entries with
  | nil =>
    intro seen db stats
    rw [deleteLoop]
    simp
  | cons e rest ih =>
    intro seen db stats
    by_cases h : e.1 ∈ seen
    · rw [deleteLoop, if_pos h, ih]
      apply List.filter_congr
      intro row _
      simp [h]
    · rw [deleteLoop, if_neg h, ih]
      have hd : (dbDeleteSource e.2.id (remove_source_chunks e.2.id db)).sources =
          db.sources.filter (fun r => r.id ≠ e.2.id) := by
        rw [dbDeleteSource, (remove_source_chunks_sources _ _).1]
      rw [hd, List.filter_filter]
      apply List.filter_congr
      intro row _
      simp only [List.any_cons, Bool.not_or, Bool.and_eq_true, decide_eq_true_eq, h,
        decide_False, Bool.not_false, Bool.true_and]
      cases hb : rest.any (fun e' => !(decide (e'.1 ∈ seen)) && e'.2.id == row.id) with
      | true => simp
      | false =>
        simp only [Bool.not_false, Bool.and_true]
        by_cases hide : e.2.id = row.id
        · simp [hide]
        · simp [hide, Ne.symm hide]

/-- A run in which every file's stored fingerprint matches skips every
file and leaves the dict, the database and the other counters unchanged. -/
theorem fileLoop_skip (fp : String → String) (now : String) :
    ∀ (fs : List SrcFile) (st : LoopSt),
      (∀ f ∈ fs, ∃ info, List.lookup f.rel st.existing = some info ∧
        info.fingerprint = fp f.text) →
      fileLoop fp now false fs st =
        { st with seen := (fs.map SrcFile.rel).reverse ++ st.seen,
                  stats := { st.stats with
                    skipped := st.stats.skipped + fs.length } } := by
  intro fs
  induction fs with
  | nil =>
    intro st _
    rw [fileLoop]
    cases st with
    | mk seen existing db stats =>
      cases stats
      simp
  | cons f rest ih =>
    intro st h
    obtain ⟨info, hlf, hfpr⟩ := h f (by simp)
    have hstep : fileStep fp now false st f =
        ⟨f.rel :: st.seen, st.existing, st.db,
          ⟨st.stats.indexed, st.stats.skipped + 1, st.stats.deleted,
            st.stats.chunks⟩⟩ := by
      simp only [fileStep, hlf, eq_self_iff_true, true_and]
      rw [if_pos hfpr]
    have hrest := ih ⟨f.rel :: st.seen, st.existing, st.db,
        ⟨st.stats.indexed, st.stats.skipped + 1, st.stats.deleted,
          st.stats.chunks⟩⟩
      (fun g hg => h g (by simp [hg]))
    rw [fileLoop, hstep, hrest]
    cases st with
    | mk seen existing db stats =>
      cases stats
      simp only [LoopSt.mk.injEq, Stats.mk.injEq, List.map_cons, List.reverse_cons,
        List.append_assoc, List.singleton_append, List.length_cons]
      exact ⟨trivial, trivial, trivial, trivial, by omega, trivial, trivial⟩

/-- After any `index_knowledge` run on a tree with distinct relative paths,
the stored sources have distinct paths, every file has a row carrying the
fresh fingerprint of its content, and every stored path belongs to the
tree. -/
theorem index_knowledge_post (fp : String → String) (now : String)
    (force : Bool) (fs : List SrcFile) (db : Db)
    (hfs : (fs.map SrcFile.rel).Nodup) (hwf : DbWf db) :
    ((index_knowledge fp now force fs db).2.sources.map SourceRow.path).Nodup ∧
    (∀ f ∈ fs, ∃ r ∈ (index_knowledge fp now force fs db).2.sources,
      r.path = f.rel ∧ r.fingerprint = fp f.text) ∧
    (∀ r ∈ (index_knowledge fp now force fs db).2.sources,
      r.path ∈ fs.map SrcFile.rel) := by
  obtain ⟨hp, hi, hb⟩ := hwf
  have hbe := buildExisting_eq db.sources hp
  have hmatch0 : ∀ e ∈ buildExisting db.sources,
      ∃ r ∈ db.sources, r.id = e.2.id ∧ r.path = e.1 := by
    intro e he
    rw [hbe] at he
    obtain ⟨r, hr, hre⟩ := List.mem_map.mp he
    exact ⟨r, hr, by rw [← hre], by rw [← hre]⟩
  have hkeys0 : ∀ r ∈ db.sources,
      r.path ∈ (buildExisting db.sources).map Prod.fst := by
    intro r hr
    rw [hbe, List.map_map]
    exact List.mem_map.mpr ⟨r, hr, rfl⟩
  have hself0 : ∀ f ∈ fs, ∀ info,
      List.lookup f.rel (buildExisting db.sources) = some info →
      ∃ r ∈ db.sources, r.id = info.id ∧ r.path = f.rel ∧
        r.fingerprint = info.fingerprint := by
    intro f _ info hl
    have hmem := lookup_mem _ _ _ hl
    rw [hbe] at hmem
    obtain ⟨r, hr, hre⟩ := List.mem_map.mp hmem
    rw [Prod.mk.injEq] at hre
    refine ⟨r, hr, ?_, hre.1, ?_⟩
    · rw [← hre.2]
    · rw [← hre.2]
  obtain ⟨p1, p2, p4, p5, p6, p7, _⟩ :=
    fileLoop_post fp now force fs ⟨[], buildExisting db.sources, db, ⟨0, 0, 0, 0⟩⟩
      hp hi hb hmatch0 hkeys0 hfs hself0
  have hres : (index_knowledge fp now force fs db).2.sources =
      (fileLoop fp now force fs
        ⟨[], buildExisting db.sources, db, ⟨0, 0, 0, 0⟩⟩).db.sources.filter
        (fun row => !((fileLoop fp now force fs
            ⟨[], buildExisting db.sources, db, ⟨0, 0, 0, 0⟩⟩).existing.any
          (fun e => !(decide (e.1 ∈ (fileLoop fp now force fs
            ⟨[], buildExisting db.sources, db, ⟨0, 0, 0, 0⟩⟩).seen)) &&
            e.2.id == row.id))) := by
    rw [index_knowledge]
    rw [deleteLoop_sources]
  have hseen : ∀ x, x ∈ (fileLoop fp now force fs
      ⟨[], buildExisting db.sources, db, ⟨0, 0, 0, 0⟩⟩).seen ↔
      x ∈ fs.map SrcFile.rel := by
    intro x
    rw [p7]
    simp
  refine ⟨?_, ?_, ?_⟩
  · rw [hres]
    exact List.Nodup.sublist ((List.filter_sublist _).map SourceRow.path) p1
  · intro f hf
    obtain ⟨rf, hrf, hrfpath, hrffpr⟩ := p6 f hf
    refine ⟨rf, ?_, hrfpath, hrffpr⟩
    rw [hres]
    rw [List.mem_filter]
    refine ⟨hrf, ?_⟩
    rw [Bool.not_eq_true']
    rw [List.any_eq_false]
    intro e he hcon
    rw [Bool.and_eq_true] at hcon
    obtain ⟨hc1, hc2⟩ := hcon
    rw [Bool.not_eq_true', decide_eq_false_iff_not] at hc1
    rw [beq_iff_eq] at hc2
    obtain ⟨re, hre, hreid, hrepath⟩ := p4 e he
    have hre_eq : re = rf := inj_id_of_nodup _ p2 re hre rf hrf (hreid.trans hc2)
    apply hc1
    rw [← hrepath, hre_eq, hrfpath, hseen]
    exact List.mem_map_of_mem SrcFile.rel hf
  · intro r hr
    rw [hres, List.mem_filter] at hr
    obtain ⟨hrmem, hpred⟩ := hr
    by_contra hnot
    have hkey := p5 r hrmem
    obtain ⟨e, he, hekey⟩ := List.mem_map.mp hkey
    obtain ⟨re, hre, hreid, hrepath⟩ := p4 e he
    have hre_eq : re = r :=
      inj_path_of_nodup _ p1 re hre r hrmem (by rw [hrepath, hekey])
    rw [Bool.not_eq_true', List.any_eq_false] at hpred
    apply hpred e he
    rw [Bool.and_eq_true]
    constructor
    · rw [Bool.not_eq_true', decide_eq_false_iff_not]
      intro hin
      apply hnot
      rw [← hekey, ← hseen]
      exact hin
    · rw [beq_iff_eq]
      rw [← hreid, hre_eq]

/-- C1: indexing the same tree (same eligible files, same contents) twice
with `force=false` on the second run reports `indexed = 0`, `deleted = 0`,
counts every file as skipped, and performs no storage mutation — the
database is returned unchanged. -/
theorem index_unchanged_idempotent (fp : String → String) (now1 now2 : String)
    (force1 : Bool) (fs : List SrcFile) (db : Db)
    (hfs : (fs.map SrcFile.rel).Nodup) (hwf : DbWf db) :
    (index_knowledge fp now2 false fs
      (index_knowledge fp now1 force1 fs db).2).1.indexed = 0 ∧
    (index_knowledge fp now2 false fs
      (index_knowledge fp now1 force1 fs db).2).1.deleted = 0 ∧
    (index_knowledge fp now2 false fs
      (index_knowledge fp now1 force1 fs db).2).1.skipped = fs.length ∧
    (index_knowledge fp now2 false fs
      (index_knowledge fp now1 force1 fs db).2).2 =
      (index_knowledge fp now1 force1 fs db).2 := by
  obtain ⟨ha, hb2, hc⟩ := index_knowledge_post fp now1 force1 fs db hfs hwf
  set db1 := (index_knowledge fp now1 force1 fs db).2 with hdb1
  have hbe := buildExisting_eq db1.sources ha
  have hkeysnd : ((db1.sources.map
      (fun r => (r.path, (⟨r.id, r.fingerprint⟩ : SrcInfo)))).map Prod.fst).Nodup := by
    rw [List.map_map]
    simpa [Function.comp] using ha
  have hskip : ∀ f ∈ fs, ∃ info,
      List.lookup f.rel (buildExisting db1.sources) = some info ∧
      info.fingerprint = fp f.text := by
    intro f hf
    obtain ⟨r, hr, hrpath, hrfpr⟩ := hb2 f hf
    refine ⟨⟨r.id, r.fingerprint⟩, ?_, hrfpr⟩
    rw [hbe]
    have hl := lookup_self_of_nodup _ hkeysnd
      (r.path, (⟨r.id, r.fingerprint⟩ : SrcInfo)) (List.mem_map_of_mem _ hr)
    rw [hrpath] at hl
    exact hl
  have hloop := fileLoop_skip fp now2 fs
    ⟨[], buildExisting db1.sources, db1, ⟨0, 0, 0, 0⟩⟩ hskip
  have hentries : ∀ e ∈ buildExisting db1.sources,
      e.1 ∈ ((fs.map SrcFile.rel).reverse ++ ([] : List String)) := by
    intro e he
    rw [hbe] at he
    obtain ⟨r, hr, hre⟩ := List.mem_map.mp he
    rw [List.mem_append, List.mem_reverse]
    left
    rw [← hre]
    exact hc r hr
  rw [show index_knowledge fp now2 false fs db1 =
      ((deleteLoop (fileLoop fp now2 false fs
          ⟨[], buildExisting db1.sources, db1, ⟨0, 0, 0, 0⟩⟩).existing
        (fileLoop fp now2 false fs
          ⟨[], buildExisting db1.sources, db1, ⟨0, 0, 0, 0⟩⟩).seen
        (fileLoop fp now2 false fs
          ⟨[], buildExisting db1.sources, db1, ⟨0, 0, 0, 0⟩⟩).db
        (fileLoop fp now2 false fs
          ⟨[], buildExisting db1.sources, db1, ⟨0, 0, 0, 0⟩⟩).stats).2,
       (deleteLoop (fileLoop fp now2 false fs
          ⟨[], buildExisting db1.sources, db1, ⟨0, 0, 0, 0⟩⟩).existing
        (fileLoop fp now2 false fs
          ⟨[], buildExisting db1.sources, db1, ⟨0, 0, 0, 0⟩⟩).seen
        (fileLoop fp now2 false fs
          ⟨[], buildExisting db1.sources, db1, ⟨0, 0, 0, 0⟩⟩).db
        (fileLoop fp now2 false fs
          ⟨[], buildExisting db1.sources, db1, ⟨0, 0, 0, 0⟩⟩).stats).1) from rfl]
  rw [hloop]
  rw [deleteLoop_noop _ _ _ _ hentries]
  refine ⟨rfl, rfl, ?_, rfl⟩
  show 0 + fs.length = fs.length
  omega

/-- C1 witness: a concrete one-file tree indexed twice over an empty
database; the second run skips the file and changes nothing. -/
theorem index_unchanged_idempotent_witness :
    (index_knowledge (fun t => t) "t2" false [⟨"docs/a.md", "/k/docs/a.md", "hello"⟩]
      (index_knowledge (fun t => t) "t1" false [⟨"docs/a.md", "/k/docs/a.md", "hello"⟩]
        ⟨[], [], [], 1, 1⟩).2).1.indexed = 0 ∧
    (index_knowledge (fun t => t) "t2" false [⟨"docs/a.md", "/k/docs/a.md", "hello"⟩]
      (index_knowledge (fun t => t) "t1" false [⟨"docs/a.md", "/k/docs/a.md", "hello"⟩]
        ⟨[], [], [], 1, 1⟩).2).1.deleted = 0 ∧
    (index_knowledge (fun t => t) "t2" false [⟨"docs/a.md", "/k/docs/a.md", "hello"⟩]
      (index_knowledge (fun t => t) "t1" false [⟨"docs/a.md", "/k/docs/a.md", "hello"⟩]
        ⟨[], [], [], 1, 1⟩).2).1.skipped = 1 ∧
    (index_knowledge (fun t => t) "t2" false [⟨"docs/a.md", "/k/docs/a.md", "hello"⟩]
      (index_knowledge (fun t => t) "t1" false [⟨"docs/a.md", "/k/docs/a.md", "hello"⟩]
        ⟨[], [], [], 1, 1⟩).2).2 =
      (index_knowledge (fun t => t) "t1" false [⟨"docs/a.md", "/k/docs/a.md", "hello"⟩]
        ⟨[], [], [], 1, 1⟩).2 :=
  index_unchanged_idempotent (fun t => t) "t1" "t2" false
    [⟨"docs/a.md", "/k/docs/a.md", "hello"⟩] ⟨[], [], [], 1, 1⟩
    (by decide) ⟨by simp, by simp, by simp⟩

/-! ### C2: connection-level atomicity of `index_knowledge` -/

theorem tryRun_base {α : Type} {o : Oracle} {g : Db → α × Db} {c : Conn}
    {p : Except KbError α × Conn} (h : tryRun o g c = p) :
    p.2.base = c.base ∧ p.2.closed = c.closed := by
  subst h
  rw [tryRun]
  split
  · exact ⟨rfl, rfl⟩
  · exact ⟨rfl, rfl⟩

theorem tryRun_ok {α : Type} {o : Oracle} {g : Db → α × Db} {c : Conn} {a : α}
    {c' : Conn} (h : tryRun o g c = (.ok a, c')) :
    a = (g c.pending).1 ∧ c'.pending = (g c.pending).2 := by
  rw [tryRun] at h
  split at h
  · exact absurd h (by simp)
  · injection h with h1 h2
    injection h1 with h1
    constructor
    · exact h1.symm
    · rw [← h2]

theorem tryCommit_error {o : Oracle} {c : Conn} {e : KbError} {c' : Conn}
    (h : tryCommit o c = (.error e, c')) :
    c'.base = c.base ∧ c'.closed = c.closed := by
  rw [tryCommit] at h
  split at h
  · injection h with h1 h2
    rw [← h2]
    exact ⟨rfl, rfl⟩
  · exact absurd h (by simp)

theorem tryCommit_ok {o : Oracle} {c : Conn} {u : Unit} {c' : Conn}
    (h : tryCommit o c = (.ok u, c')) :
    c'.base = c.pending ∧ c'.closed = c.closed := by
  rw [tryCommit] at h
  split at h
  · exact absurd h (by simp)
  · injection h with h1 h2
    rw [← h2]
    exact ⟨rfl, rfl⟩

theorem insert_chunks_from_conn_snd (o : Oracle) (sid : Nat) :
    ∀ (ps : List Paragraph) (idx count : Nat) (c : Conn),
      (insert_chunks_from_conn o sid ps idx count c).2.base = c.base ∧
      (insert_chunks_from_conn o sid ps idx count c).2.closed = c.closed := by
  intro ps
  induction ps with
  | nil => intro idx count c; exact ⟨rfl, rfl⟩
  | cons block rest ih =>
    intro idx count c
    rw [insert_chunks_from_conn]
    by_cases he : pyStrip block.text = ""
    · rw [if_pos he]; exact ih _ _ _
    · rw [if_neg he]
      rcases h1 : tryRun o
          (dbInsertChunk sid idx block.sec block.line (pyStrip block.text)) c
        with ⟨e1 | cid, c1⟩
      · have t1 := tryRun_base h1
        exact t1
      · dsimp only
        rcases h2 : tryRun o
            (fun db => ((), dbInsertFts cid (pyStrip block.text) db)) c1
          with ⟨e2 | u2, c2⟩
        · have t1 := tryRun_base h1
          have t2 := tryRun_base h2
          exact ⟨t2.1.trans t1.1, t2.2.trans t1.2⟩
        · dsimp only
          have t1 := tryRun_base h1
          have t2 := tryRun_base h2
          have t3 := ih (idx + 1) (count + 1) c2
          exact ⟨t3.1.trans (t2.1.trans t1.1), t3.2.trans (t2.2.trans t1.2)⟩

theorem insert_chunks_from_conn_base {o : Oracle} {sid : Nat}
    {ps : List Paragraph} {idx count : Nat} {c : Conn}
    {p : Except KbError Nat × Conn}
    (h : insert_chunks_from_conn o sid ps idx count c = p) :
    p.2.base = c.base ∧ p.2.closed = c.closed := by
  rw [← h]
  exact insert_chunks_from_conn_snd o sid ps idx count c

theorem fileStepConn_snd (o : Oracle) (fp : String → String) (now : String)
    (force : Bool) (ctx : LoopCtx) (f : SrcFile) (c : Conn) :
    (fileStepConn o fp now force ctx f c).2.base = c.base ∧
    (fileStepConn o fp now force ctx f c).2.closed = c.closed := by
  rw [fileStepConn]
  dsimp only
  cases hl : List.lookup f.rel ctx.existing with
  | some info =>
    dsimp only
    by_cases hsk : force = false ∧ info.fingerprint = fp f.text
    · rw [if_pos hsk]; exact ⟨rfl, rfl⟩
    · rw [if_neg hsk]
      rcases h1 : tryRun o (fun db => ((), dbDeleteFtsOfSource info.id db)) c
        with ⟨e1 | u1, c1⟩
      · have t1 := tryRun_base h1
        exact t1
      · dsimp only
        rcases h2 : tryRun o
            (fun db => ((), dbDeleteChunksOfSource info.id db)) c1
          with ⟨e2 | u2, c2⟩
        · have t1 := tryRun_base h1
          have t2 := tryRun_base h2
          exact ⟨t2.1.trans t1.1, t2.2.trans t1.2⟩
        · dsimp only
          rcases h3 : tryRun o
              (fun db => ((), dbUpdateSource info.id
                (if (extract_paragraphs f.text).1 = "" then fallbackTitle f.path
                  else (extract_paragraphs f.text).1)
                (fp f.text) now db)) c2
            with ⟨e3 | u3, c3⟩
          · have t1 := tryRun_base h1
            have t2 := tryRun_base h2
            have t3 := tryRun_base h3
            exact ⟨t3.1.trans (t2.1.trans t1.1), t3.2.trans (t2.2.trans t1.2)⟩
          · dsimp only
            rcases h4 : insert_chunks_from_conn o info.id
                (extract_paragraphs f.text).2 0 0 c3 with ⟨e4 | n, c4⟩
            · have t1 := tryRun_base h1
              have t2 := tryRun_base h2
              have t3 := tryRun_base h3
              have t4 := insert_chunks_from_conn_base h4
              exact ⟨t4.1.trans (t3.1.trans (t2.1.trans t1.1)),
                t4.2.trans (t3.2.trans (t2.2.trans t1.2))⟩
            · dsimp only
              have t1 := tryRun_base h1
              have t2 := tryRun_base h2
              have t3 := tryRun_base h3
              have t4 := insert_chunks_from_conn_base h4
              exact ⟨t4.1.trans (t3.1.trans (t2.1.trans t1.1)),
                t4.2.trans (t3.2.trans (t2.2.trans t1.2))⟩
  | none =>
    dsimp only
    rcases h1 : tryRun o
        (dbInsertSource f.rel
          (if (extract_paragraphs f.text).1 = "" then fallbackTitle f.path
            else (extract_paragraphs f.text).1)
          (fp f.text) now) c
      with ⟨e1 | sid, c1⟩
    · have t1 := tryRun_base h1
      exact t1
    · dsimp only
      rcases h2 : insert_chunks_from_conn o sid
          (extract_paragraphs f.text).2 0 0 c1 with ⟨e2 | n, c2⟩
      · have t1 := tryRun_base h1
        have t2 := insert_chunks_from_conn_base h2
        exact ⟨t2.1.trans t1.1, t2.2.trans t1.2⟩
      · dsimp only
        have t1 := tryRun_base h1
        have t2 := insert_chunks_from_conn_base h2
        exact ⟨t2.1.trans t1.1, t2.2.trans t1.2⟩

theorem fileLoopConn_snd (o : Oracle) (fp : String → String) (now : String)
    (force : Bool) :
    ∀ (fs : List SrcFile) (ctx : LoopCtx) (c : Conn),
      (fileLoopConn o fp now force fs ctx c).2.base = c.base ∧
      (fileLoopConn o fp now force fs ctx c).2.closed = c.closed := by
  intro fs
  induction fs with
  | nil => intro ctx c; exact ⟨rfl, rfl⟩
  | cons f rest ih =>
    intro ctx c
    rw [fileLoopConn]
    rcases h1 : fileStepConn o fp now force ctx f c with ⟨e1 | ctx1, c1⟩
    · have t1 := fileStepConn_snd o fp now force ctx f c
      rw [h1] at t1
      exact t1
    · dsimp only
      have t1 := fileStepConn_snd o fp now force ctx f c
      rw [h1] at t1
      have t2 := ih ctx1 c1
      exact ⟨t2.1.trans t1.1, t2.2.trans t1.2⟩

theorem deleteLoopConn_snd (o : Oracle) :
    ∀ (entries : List (String × SrcInfo)) (seen : List String) (stats : Stats)
      (c : Conn),
      (deleteLoopConn o entries seen stats c).2.base = c.base ∧
      (deleteLoopConn o entries seen stats c).2.closed = c.closed := by
  intro entries
  induction entries with
  | nil => intro seen stats c; exact ⟨rfl, rfl⟩
  | cons e rest ih =>
    intro seen stats c
    rw [deleteLoopConn]
    by_cases hm : e.1 ∈ seen
    · rw [if_pos hm]; exact ih _ _ _
    · rw [if_neg hm]
      rcases h1 : tryRun o (fun db => ((), dbDeleteFtsOfSource e.2.id db)) c
        with ⟨e1 | u1, c1⟩
      · have t1 := tryRun_base h1
        exact t1
      · dsimp only
        rcases h2 : tryRun o
            (fun db => ((), dbDeleteChunksOfSource e.2.id db)) c1
          with ⟨e2 | u2, c2⟩
        · have t1 := tryRun_base h1
          have t2 := tryRun_base h2
          exact ⟨t2.1.trans t1.1, t2.2.trans t1.2⟩
        · dsimp only
          rcases h3 : tryRun o (fun db => ((), dbDeleteSource e.2.id db)) c2
            with ⟨e3 | u3, c3⟩
          · have t1 := tryRun_base h1
            have t2 := tryRun_base h2
            have t3 := tryRun_base h3
            exact ⟨t3.1.trans (t2.1.trans t1.1), t3.2.trans (t2.2.trans t1.2)⟩
          · dsimp only
            have t1 := tryRun_base h1
            have t2 := tryRun_base h2
            have t3 := tryRun_base h3
            have t4 := ih seen { stats with deleted := stats.deleted + 1 } c3
            exact ⟨t4.1.trans (t3.1.trans (t2.1.trans t1.1)),
              t4.2.trans (t3.2.trans (t2.2.trans t1.2))⟩

theorem remove_split (sid : Nat) (db : Db) :
    dbDeleteChunksOfSource sid (dbDeleteFtsOfSource sid db) =
      remove_source_chunks sid db := rfl

theorem insert_chunks_from_conn_ok (o : Oracle) (sid : Nat) :
    ∀ (ps : List Paragraph) (idx count : Nat) (c : Conn) (n : Nat) (c' : Conn),
      insert_chunks_from_conn o sid ps idx count c = (.ok n, c') →
      insert_chunks_from sid ps idx count c.pending = (n, c'.pending) := by
  intro ps
  induction ps with
  | nil =>
    intro idx count c n c' h
    rw [insert_chunks_from_conn] at h
    injection h with h1 h2
    injection h1 with h1
    subst h1
    subst h2
    rfl
  | cons block rest ih =>
    intro idx count c n c'
    rw [insert_chunks_from_conn, insert_chunks_from]
    dsimp only
    by_cases he : pyStrip block.text = ""
    · rw [if_pos he, if_pos he]
      exact ih (idx + 1) count c n c'
    · rw [if_neg he, if_neg he]
      rcases h1 : tryRun o
          (dbInsertChunk sid idx block.sec block.line (pyStrip block.text)) c
        with ⟨e1 | cid, c1⟩
      · intro h
        simp at h
      · dsimp only
        rcases h2 : tryRun o
            (fun db => ((), dbInsertFts cid (pyStrip block.text) db)) c1
          with ⟨e2 | u2, c2⟩
        · intro h
          simp at h
        · dsimp only
          intro h
          have k1 := tryRun_ok h1
          have k2 := tryRun_ok h2
          dsimp only at k2
          have hrec := ih (idx + 1) (count + 1) c2 n c' h
          rw [← k1.1, ← k1.2, ← k2.2]
          exact hrec

theorem fileStepConn_ok (o : Oracle) (fp : String → String) (now : String)
    (force : Bool) (ctx : LoopCtx) (f : SrcFile) (c : Conn) (ctx' : LoopCtx)
    (c' : Conn) :
    fileStepConn o fp now force ctx f c = (.ok ctx', c') →
    fileStep fp now force ⟨ctx.seen, ctx.existing, c.pending, ctx.stats⟩ f =
      ⟨ctx'.seen, ctx'.existing, c'.pending, ctx'.stats⟩ := by
  rw [fileStepConn, fileStep]
  dsimp only
  cases hl : List.lookup f.rel ctx.existing with
  | some info =>
    dsimp only
    by_cases hsk : force = false ∧ info.fingerprint = fp f.text
    · rw [if_pos hsk, if_pos hsk]
      intro h
      injection h with h1 h2
      injection h1 with h1
      subst h1
      subst h2
      rfl
    · rw [if_neg hsk, if_neg hsk]
      rcases h1 : tryRun o (fun db => ((), dbDeleteFtsOfSource info.id db)) c
        with ⟨e1 | u1, c1⟩
      · intro h
        simp at h
      · dsimp only
        rcases h2 : tryRun o
            (fun db => ((), dbDeleteChunksOfSource info.id db)) c1
          with ⟨e2 | u2, c2⟩
        · intro h
          simp at h
        · dsimp only
          rcases h3 : tryRun o
              (fun db => ((), dbUpdateSource info.id
                (if (extract_paragraphs f.text).1 = "" then fallbackTitle f.path
                  else (extract_paragraphs f.text).1)
                (fp f.text) now db)) c2
            with ⟨e3 | u3, c3⟩
          · intro h
            simp at h
          · dsimp only
            rcases h4 : insert_chunks_from_conn o info.id
                (extract_paragraphs f.text).2 0 0 c3 with ⟨e4 | n, c4⟩
            · intro h
              simp at h
            · dsimp only
              intro h
              injection h with ha hb
              injection ha with ha
              subst ha
              subst hb
              have k1 := (tryRun_ok h1).2
              have k2 := (tryRun_ok h2).2
              have k3 := (tryRun_ok h3).2
              dsimp only at k1 k2 k3
              have k4 := insert_chunks_from_conn_ok o info.id
                (extract_paragraphs f.text).2 0 0 c3 n c4 h4
              have hr : insert_chunks info.id (extract_paragraphs f.text).2
                  (dbUpdateSource info.id
                    (if (extract_paragraphs f.text).1 = ""
                      then fallbackTitle f.path else (extract_paragraphs f.text).1)
                    (fp f.text) now
                    (remove_source_chunks info.id c.pending)) = (n, c4.pending) := by
                rw [insert_chunks, ← remove_split, ← k1, ← k2, ← k3]
                exact k4
              rw [hr]
  | none =>
    dsimp only
    rcases h1 : tryRun o
        (dbInsertSource f.rel
          (if (extract_paragraphs f.text).1 = "" then fallbackTitle f.path
            else (extract_paragraphs f.text).1)
          (fp f.text) now) c
      with ⟨e1 | sid, c1⟩
    · intro h
      simp at h
    · dsimp only
      rcases h2 : insert_chunks_from_conn o sid
          (extract_paragraphs f.text).2 0 0 c1 with ⟨e2 | n, c2⟩
      · intro h
        simp at h
      · dsimp only
        intro h
        injection h with ha hb
        injection ha with ha
        subst ha
        subst hb
        have k1 := tryRun_ok h1
        have k4 := insert_chunks_from_conn_ok o sid
          (extract_paragraphs f.text).2 0 0 c1 n c2 h2
        have hr : insert_chunks
            (dbInsertSource f.rel
              (if (extract_paragraphs f.text).1 = "" then fallbackTitle f.path
                else (extract_paragraphs f.text).1)
              (fp f.text) now c.pending).1
            (extract_paragraphs f.text).2
            (dbInsertSource f.rel
              (if (extract_paragraphs f.text).1 = "" then fallbackTitle f.path
                else (extract_paragraphs f.text).1)
              (fp f.text) now c.pending).2 = (n, c2.pending) := by
          rw [insert_chunks, ← k1.1, ← k1.2]
          exact k4
        rw [hr, k1.1]

theorem fileLoopConn_ok (o : Oracle) (fp : String → String) (now : String)
    (force : Bool) :
    ∀ (fs : List SrcFile) (ctx : LoopCtx) (c : Conn) (ctx' : LoopCtx) (c' : Conn),
      fileLoopConn o fp now force fs ctx c = (.ok ctx', c') →
      fileLoop fp now force fs ⟨ctx.seen, ctx.existing, c.pending, ctx.stats⟩ =
        ⟨ctx'.seen, ctx'.existing, c'.pending, ctx'.stats⟩ := by
  intro fs
  induction fs with
  | nil =>
    intro ctx c ctx' c' h
    rw [fileLoopConn] at h
    injection h with h1 h2
    injection h1 with h1
    subst h1
    subst h2
    rfl
  | cons f rest ih =>
    intro ctx c ctx' c'
    rw [fileLoopConn, fileLoop]
    rcases h1 : fileStepConn o fp now force ctx f c with ⟨e1 | ctx1, c1⟩
    · intro h
      simp at h
    · dsimp only
      intro h
      rw [fileStepConn_ok o fp now force ctx f c ctx1 c1 h1]
      exact ih ctx1 c1 ctx' c' h

theorem deleteLoopConn_ok (o : Oracle) :
    ∀ (entries : List (String × SrcInfo)) (seen : List String) (stats : Stats)
      (c : Conn) (stats' : Stats) (c' : Conn),
      deleteLoopConn o entries seen stats c = (.ok stats', c') →
      deleteLoop entries seen c.pending stats = (c'.pending, stats') := by
  intro entries
  induction entries with
  | nil =>
    intro seen stats c stats' c' h
    rw [deleteLoopConn] at h
    injection h with h1 h2
    injection h1 with h1
    subst h1
    subst h2
    rfl
  | cons e rest ih =>
    intro seen stats c stats' c'
    rw [deleteLoopConn, deleteLoop]
    by_cases hm : e.1 ∈ seen
    · rw [if_pos hm, if_pos hm]
      exact ih seen stats c stats' c'
    · rw [if_neg hm, if_neg hm]
      rcases h1 : tryRun o (fun db => ((), dbDeleteFtsOfSource e.2.id db)) c
        with ⟨e1 | u1, c1⟩
      · intro h
        simp at h
      · dsimp only
        rcases h2 : tryRun o
            (fun db => ((), dbDeleteChunksOfSource e.2.id db)) c1
          with ⟨e2 | u2, c2⟩
        · intro h
          simp at h
        · dsimp only
          rcases h3 : tryRun o (fun db => ((), dbDeleteSource e.2.id db)) c2
            with ⟨e3 | u3, c3⟩
          · intro h
            simp at h
          · dsimp only
            intro h
            have k1 := (tryRun_ok h1).2
            have k2 := (tryRun_ok h2).2
            have k3 := (tryRun_ok h3).2
            dsimp only at k1 k2 k3
            have hrec := ih seen { stats with deleted := stats.deleted + 1 }
              c3 stats' c' h
            rw [← remove_split, ← k1, ← k2, ← k3]
            exact hrec

/-- C2: for every index call, either every storage mutation of the call
becomes durable together — the committed state after the call is exactly
the result of the pure `index_knowledge` reconciliation and the returned
stats are its stats — or a storage error propagates to the caller and no
mutation is visible: the committed state is still the pre-call database.
On every exit path the connection ends closed, with its
transaction-visible state rolled back to the committed one. -/
theorem index_atomicity (o : Oracle) (fp : String → String) (now : String)
    (force : Bool) (fs : List SrcFile) (db : Db) :
    (indexKnowledgeConn o fp now force fs db).2.closed = true ∧
    (indexKnowledgeConn o fp now force fs db).2.pending =
      (indexKnowledgeConn o fp now force fs db).2.base ∧
    (((indexKnowledgeConn o fp now force fs db).1 =
        .ok (index_knowledge fp now force fs db).1 ∧
      (indexKnowledgeConn o fp now force fs db).2.base =
        (index_knowledge fp now force fs db).2) ∨
     (∃ e, (indexKnowledgeConn o fp now force fs db).1 = .error e ∧
       (indexKnowledgeConn o fp now force fs db).2.base = db)) := by
  rw [indexKnowledgeConn]
  rcases h1 : tryRun o (fun d => (d.sources, d)) (openConn db)
    with ⟨e0 | rows, c1⟩
  · dsimp only
    have t1 := tryRun_base h1
    refine ⟨rfl, rfl, Or.inr ⟨e0, rfl, ?_⟩⟩
    exact t1.1
  · dsimp only
    have k0 := tryRun_ok h1
    dsimp only [openConn] at k0
    rcases h2 : fileLoopConn o fp now force fs
        ⟨[], buildExisting rows, ⟨0, 0, 0, 0⟩⟩ c1 with ⟨e1 | ctx, c2⟩
    · dsimp only
      have t1 := tryRun_base h1
      have t2 := fileLoopConn_snd o fp now force fs
        ⟨[], buildExisting rows, ⟨0, 0, 0, 0⟩⟩ c1
      rw [h2] at t2
      refine ⟨rfl, rfl, Or.inr ⟨e1, rfl, ?_⟩⟩
      exact t2.1.trans t1.1
    · dsimp only
      rcases h3 : deleteLoopConn o ctx.existing ctx.seen ctx.stats c2
        with ⟨e2 | stats, c3⟩
      · dsimp only
        have t1 := tryRun_base h1
        have t2 := fileLoopConn_snd o fp now force fs
          ⟨[], buildExisting rows, ⟨0, 0, 0, 0⟩⟩ c1
        rw [h2] at t2
        have t3 := deleteLoopConn_snd o ctx.existing ctx.seen ctx.stats c2
        rw [h3] at t3
        refine ⟨rfl, rfl, Or.inr ⟨e2, rfl, ?_⟩⟩
        exact t3.1.trans (t2.1.trans t1.1)
      · dsimp only
        rcases h4 : tryCommit o c3 with ⟨e3 | u, c4⟩
        · dsimp only
          have t1 := tryRun_base h1
          have t2 := fileLoopConn_snd o fp now force fs
            ⟨[], buildExisting rows, ⟨0, 0, 0, 0⟩⟩ c1
          rw [h2] at t2
          have t3 := deleteLoopConn_snd o ctx.existing ctx.seen ctx.stats c2
          rw [h3] at t3
          have t4 := tryCommit_error h4
          refine ⟨rfl, rfl, Or.inr ⟨e3, rfl, ?_⟩⟩
          exact t4.1.trans (t3.1.trans (t2.1.trans t1.1))
        · dsimp only
          have t4 := tryCommit_ok h4
          have hok1 := fileLoopConn_ok o fp now force fs
            ⟨[], buildExisting rows, ⟨0, 0, 0, 0⟩⟩ c1 ctx c2 h2
          dsimp only at hok1
          rw [k0.1, k0.2] at hok1
          have hok2 := deleteLoopConn_ok o ctx.existing ctx.seen ctx.stats c2
            stats c3 h3
          have hpure : index_knowledge fp now force fs db = (stats, c3.pending) := by
            rw [index_knowledge]
            rw [hok1]
            dsimp only
            rw [hok2]
          refine ⟨rfl, rfl, Or.inl ⟨?_, ?_⟩⟩
          · rw [hpure]
          · rw [hpure]
            exact t4.1

end Cmos
